import Mathlib

/-!
Verification of `md_tex2img.py` (pyMarkium): a markdown-to-medium pipeline that
extracts LaTeX snippets delimited by a tag string, replaces them by the
placeholder `[LATEX_SNIP]`, renders each snippet to a cropped png, and
reinserts image links (or the raw snippet text on compile failure).

Strings are modelled as `List Char`.  Python's `tag in s` / `s.index(tag)` are
modelled by `firstIdx?`; slicing by `List.take` / `List.drop`.
-/

namespace PyMarkium

/-- Characters of a string literal. -/
def str (s : String) : List Char := s.data

/-- `occursAt p s i` : the pattern `p` occurs in `s` starting at index `i`
(Python: `s[i:i+len(p)] == p`). -/
def occursAt (p s : List Char) (i : Nat) : Prop := (s.drop i).take p.length = p

instance (p s : List Char) (i : Nat) : Decidable (occursAt p s i) := by
  unfold occursAt; infer_instance

/-- Index of the first occurrence of `p` in `s` (Python `s.index(p)` when
`p in s`, `none` when `p not in s`; like Python, the empty pattern occurs at
index 0 of every string). -/
def firstIdx? (p : List Char) : List Char → Option Nat
  | [] => if p = [] then some 0 else none
  | c :: rest =>
    if (c :: rest).take p.length = p then some 0
    else (firstIdx? p rest).map (· + 1)

/-- Number of occurrences of `p` in `s` (all start positions counted). -/
def countOcc (p s : List Char) : Nat :=
  (List.range s.length).countP (fun i => decide (occursAt p s i))

-- ------------------------------------------------------------------
-- Basic lemmas about occursAt

theorem occursAt_iff_exists {p s : List Char} {i : Nat} :
    occursAt p s i ↔ ∃ t, p ++ t = s.drop i := by
  unfold occursAt
  constructor
  · intro h
    refine ⟨(s.drop i).drop p.length, ?_⟩
    conv_rhs => rw [← List.take_append_drop p.length (s.drop i)]
    rw [h]
  · rintro ⟨t, ht⟩
    rw [← ht, List.take_left' rfl]

theorem occursAt_nil {s : List Char} (i : Nat) : occursAt [] s i := by
  simp [occursAt]

theorem occursAt.length_le {p s : List Char} {i : Nat} (hp : p ≠ [])
    (h : occursAt p s i) : i + p.length ≤ s.length := by
  rcases occursAt_iff_exists.1 h with ⟨t, ht⟩
  have h1 : p.length + t.length = s.length - i := by
    simpa using congrArg List.length ht
  have h2 : 0 < p.length := List.length_pos.2 hp
  omega

theorem occursAt_zero_iff {p s : List Char} : occursAt p s 0 ↔ s.take p.length = p := by
  simp [occursAt]

theorem occursAt_succ_cons {p : List Char} {c : Char} {rest : List Char} {i : Nat} :
    occursAt p (c :: rest) (i + 1) ↔ occursAt p rest i := by
  simp [occursAt]

theorem occursAt_nil_false {p : List Char} (hp : p ≠ []) (i : Nat) :
    ¬ occursAt p ([] : List Char) i := by
  intro h
  have := occursAt_iff_exists.1 h
  rcases this with ⟨t, ht⟩
  simp at ht
  exact hp ht.1

-- ------------------------------------------------------------------
-- Characterization of firstIdx?

theorem firstIdx?_eq_some_iff {p : List Char} (hp : p ≠ []) :
    ∀ (s : List Char) (i : Nat),
      firstIdx? p s = some i ↔ (occursAt p s i ∧ ∀ j, j < i → ¬ occursAt p s j) := by
  intro s
  induction s with
  | nil =>
    intro i
    simp only [firstIdx?, if_neg hp]
    constructor
    · intro h; cases h
    · rintro ⟨h, -⟩; exact absurd h (occursAt_nil_false hp i)
  | cons c rest ih =>
    intro i
    by_cases h0 : occursAt p (c :: rest) 0
    · have h0' : (c :: rest).take p.length = p := occursAt_zero_iff.1 h0
      simp only [firstIdx?, if_pos h0']
      constructor
      · rintro ⟨rfl⟩
        exact ⟨h0, fun j hj => absurd hj (Nat.not_lt_zero j)⟩
      · rintro ⟨hi, hmin⟩
        cases i with
        | zero => rfl
        | succ i' => exact absurd h0 (hmin 0 (Nat.succ_pos i'))
    · have h0' : ¬ (c :: rest).take p.length = p := fun h => h0 (occursAt_zero_iff.2 h)
      simp only [firstIdx?, if_neg h0']
      constructor
      · intro h
        rcases Option.map_eq_some'.1 h with ⟨i', hi', rfl⟩
        rcases (ih i').1 hi' with ⟨hocc, hmin⟩
        refine ⟨occursAt_succ_cons.2 hocc, ?_⟩
        intro j hj
        cases j with
        | zero => exact h0
        | succ j' => exact fun hc => hmin j' (Nat.lt_of_succ_lt_succ hj) (occursAt_succ_cons.1 hc)
      · rintro ⟨hi, hmin⟩
        cases i with
        | zero => exact absurd hi h0
        | succ i' =>
          have : firstIdx? p rest = some i' := by
            refine (ih i').2 ⟨occursAt_succ_cons.1 hi, ?_⟩
            intro j hj hc
            exact hmin (j + 1) (Nat.succ_lt_succ hj) (occursAt_succ_cons.2 hc)
          rw [this]; rfl

theorem firstIdx?_eq_none_iff {p : List Char} (hp : p ≠ []) :
    ∀ (s : List Char), firstIdx? p s = none ↔ ∀ i, ¬ occursAt p s i := by
  intro s
  induction s with
  | nil =>
    simp only [firstIdx?, if_neg hp]
    exact ⟨fun _ i => occursAt_nil_false hp i, fun _ => trivial⟩
  | cons c rest ih =>
    by_cases h0 : occursAt p (c :: rest) 0
    · have h0' : (c :: rest).take p.length = p := occursAt_zero_iff.1 h0
      simp only [firstIdx?, if_pos h0']
      constructor
      · intro h; cases h
      · intro h; exact absurd h0 (h 0)
    · have h0' : ¬ (c :: rest).take p.length = p := fun h => h0 (occursAt_zero_iff.2 h)
      simp only [firstIdx?, if_neg h0', Option.map_eq_none']
      rw [ih]
      constructor
      · intro h i
        cases i with
        | zero => exact h0
        | succ i' => exact fun hc => h i' (occursAt_succ_cons.1 hc)
      · intro h i hc
        exact h (i + 1) (occursAt_succ_cons.2 hc)

-- ------------------------------------------------------------------
-- Occurrences and append / take / drop

theorem occursAt_shift {p x y : List Char} (i : Nat) :
    occursAt p (x ++ y) (x.length + i) ↔ occursAt p y i := by
  unfold occursAt
  rw [List.drop_append i]

theorem occursAt_append_left {p x : List Char} (y : List Char) {i : Nat}
    (h : occursAt p x i) : occursAt p (x ++ y) i := by
  by_cases hp : p = []
  · subst hp; exact occursAt_nil i
  · have hle := occursAt.length_le hp h
    have hi : i ≤ x.length := Nat.le_trans (Nat.le_add_right i p.length) hle
    rcases occursAt_iff_exists.1 h with ⟨t, ht⟩
    refine occursAt_iff_exists.2 ⟨t ++ y, ?_⟩
    rw [List.drop_append_of_le_length hi, ← List.append_assoc, ht]

theorem occursAt_take_of_le {p s : List Char} {j i : Nat} (h : occursAt p s i)
    (hle : i + p.length ≤ j) : occursAt p (s.take j) i := by
  unfold occursAt at h ⊢
  rw [List.drop_take j i s]
  rw [List.take_take, min_eq_left (by omega)]
  exact h

theorem occursAt_of_take {p s : List Char} {j i : Nat} (h : occursAt p (s.take j) i) :
    occursAt p s i := by
  unfold occursAt at h ⊢
  rw [List.drop_take j i s] at h
  rw [List.take_take] at h
  have hm : min p.length (j - i) = p.length := by
    have hlen := congrArg List.length h
    simp [List.length_take, List.length_drop] at hlen
    omega
  rwa [hm] at h

theorem occursAt_left_of_le {p x y : List Char} {i : Nat}
    (h : occursAt p (x ++ y) i) (hle : i + p.length ≤ x.length) : occursAt p x i := by
  have h' := occursAt_take_of_le h hle
  rwa [List.take_left x y] at h'

theorem occursAt_getElem? {p s : List Char} {i j : Nat} (h : occursAt p s i)
    (h1 : i ≤ j) (h2 : j < i + p.length) : s[j]? = p[j - i]? := by
  unfold occursAt at h
  conv_rhs => rw [← h]
  rw [List.getElem?_take_of_lt (by omega)]
  rw [List.getElem?_drop]
  congr 1
  omega

/-- Every character covered by an occurrence of `p` is a character of `p`. -/
theorem occursAt_covered_mem {p s : List Char} {i j : Nat} {c : Char}
    (h : occursAt p s i) (h1 : i ≤ j) (h2 : j < i + p.length)
    (hc : s[j]? = some c) : c ∈ p := by
  rw [occursAt_getElem? h h1 h2] at hc
  exact List.getElem?_mem hc

theorem occursAt_getElem?_self {p s : List Char} (hp : p ≠ []) {i : Nat}
    (h : occursAt p s i) : s[i]? = p[0]? := by
  have := occursAt_getElem? h (Nat.le_refl i) (by have : 0 < p.length := List.length_pos.2 hp; omega)
  simpa using this

-- ------------------------------------------------------------------
-- Embedding of the pipeline (md_tex2img.py)

/-- `self.tex_replace`, the placeholder substituted for each tag pair. -/
def tex_replace : List Char := str "[LATEX_SNIP]"

/-- One iteration of the `while tag in content` loop body of
`md_textool.find_texsnips` (lines 97-109).  `none` when the loop would stop:
either `tag not in content` (the `while` guard fails) or no second tag
occurrence exists in `temp_post` (the `break`).  Otherwise the appended
snippet and the updated `content`. -/
def scanStep (tag content : List Char) : Option (List Char × List Char) :=
  match firstIdx? tag content with
  | none => none
  | some idx =>
    match firstIdx? tag (content.drop (idx + tag.length)) with
    | none => none
    | some idx_next =>
      some ((content.drop (idx + tag.length)).take idx_next,
        content.take idx ++ tex_replace
          ++ (content.drop (idx + tag.length)).drop (idx_next + tag.length))

/-- `md_textool.find_texsnips` (lines 92-114): the full loop, with explicit
fuel bounding the number of iterations (`none` = fuel exhausted, the Python
loop is still running).  Returns `(tex_snips, new_content)`;
`n_snips = tex_snips.length` and `has_tex = tex_snips ≠ []`. -/
def find_texsnips (tag : List Char) : Nat → List Char → Option (List (List Char) × List Char)
  | 0, _ => none
  | fuel + 1, content =>
    match scanStep tag content with
    | none => some ([], content)
    | some (snip, content') =>
      match find_texsnips tag fuel content' with
      | none => none
      | some (snips, final) => some (snip :: snips, final)

/-- Python `s.replace(old, new, 1)`: replace the first occurrence only. -/
def replaceOnce (old new s : List Char) : List Char :=
  match firstIdx? old s with
  | none => s
  | some i => s.take i ++ new ++ s.drop (i + old.length)

/-- Decimal digit character. -/
def digitChar (n : Nat) : Char := Char.ofNat (48 + n)

def natCharsAux : Nat → Nat → List Char
  | 0, _ => []
  | fuel + 1, n =>
    if n < 10 then [digitChar n]
    else natCharsAux fuel (n / 10) ++ [digitChar (n % 10)]

/-- Python `str(n)` for a natural number. -/
def natChars (n : Nat) : List Char := natCharsAux (n + 1) n

/-- Python `s.split('.')[0]`: everything before the first dot
(the whole string when there is no dot). -/
def beforeFirstDot (s : List Char) : List Char := s.takeWhile (· ≠ '.')

/-- Python `s.split('.')[-1]`: everything after the last dot
(the whole string when there is no dot). -/
def afterLastDot (s : List Char) : List Char := (s.reverse.takeWhile (· ≠ '.')).reverse

/-- Path of the i-th generated source file, `snip_to_texdoc` with the default
folder `fig/`: `folder_path + 'tex_snip_{}'.format(i) + '.tex'`. -/
def texPath (i : Nat) : List Char := str "fig/tex_snip_" ++ natChars i ++ str ".tex"

/-- Output path produced by `tex_to_pdf` when called without `out_path`
(as `convert_all_tex_to_pdf` does): `tex_path.split('.')[0] + '.pdf'`. -/
def pdfPath (i : Nat) : List Char := beforeFirstDot (texPath i) ++ str ".pdf"

/-- Image path recorded by `convert_pdfs_to_im`:
`path.split('.')[0] + '.png'`. -/
def imPath (i : Nat) : List Char := beforeFirstDot (pdfPath i) ++ str ".png"

/-- `replace_val = '![{}]({})'.format(i, im_path)` with the image path the
pipeline records for ordinal `i`. -/
def imageLink (i : Nat) : List Char :=
  str "![" ++ natChars i ++ str "](" ++ imPath i ++ str ")"

/-- The `for i, snip in enumerate(self.tex_snips)` loop of
`md_textool.insert_images_in_md` (lines 271-281).  In a full run
`convert_pdfs_to_im` records, for each ordinal `i` outside `bad_convert_idx`,
the image path `imPath i` at list position `self.image_paths_idx.index(i)`,
so the looked-up `im_path` is `imPath i`. -/
def insertLoop (bad : List Nat) : List (List Char) → Nat → List Char → List Char
  | [], _, content => content
  | snip :: rest, i, content =>
    if i ∈ bad then insertLoop bad rest (i + 1) (replaceOnce tex_replace snip content)
    else insertLoop bad rest (i + 1) (replaceOnce tex_replace (imageLink i) content)

/-- `md_textool.insert_images_in_md` as a function of `tex_snips`,
`bad_convert_idx` and `new_content`. -/
def insert_images_in_md (snips : List (List Char)) (bad : List Nat)
    (content : List Char) : List Char :=
  insertLoop bad snips 0 content

/-- Destination path computed by `md_textool.save_new_md`:
`self.md_path.split('.')[0] + '_medium.md'`. -/
def save_new_md_path (md_path : List Char) : List Char :=
  beforeFirstDot md_path ++ str "_medium.md"

/-- Files remaining in the working folder after `md_textool.clean_figfolder`:
the code deletes every file `f` with `f.split('.')[-1].lower() != 'png'`. -/
def clean_figfolder (files : List (List Char)) : List (List Char) :=
  let to_remove := files.filter (fun f => !((afterLastDot f).map Char.toLower == str "png"))
  files.filter (fun f => !(to_remove.contains f))

-- ------------------------------------------------------------------
-- Expected scan output for a document whose tag occurrences are exactly a
-- given sorted list of pair positions (plus an optional unmatched trailing
-- occurrence).

/-- Positions of a list of (opening, closing) tag-pair start indices,
flattened in document order. -/
def pairPositions : List (Nat × Nat) → List Nat
  | [] => []
  | q :: rest => q.1 :: q.2 :: pairPositions rest

/-- Shift a pair of positions down by `sub`. -/
def shiftPos (sub : Nat) (q : Nat × Nat) : Nat × Nat := (q.1 - sub, q.2 - sub)

/-- `Gapped n l`: the positions in `l` are in increasing order, consecutive
positions at distance at least `n` (so occurrences of an `n`-character tag at
these positions do not overlap). -/
def Gapped (n : Nat) : List Nat → Prop
  | [] => True
  | [_] => True
  | a :: b :: rest => a + n ≤ b ∧ Gapped n (b :: rest)

/-- The snippets the scan extracts: the text strictly between the two tags of
each pair. -/
def expSnips (n : Nat) : List Char → List (Nat × Nat) → List (List Char)
  | _, [] => []
  | content, (d1, d2) :: rest =>
    (content.drop (d1 + n)).take (d2 - (d1 + n)) ::
      expSnips n (content.drop (d2 + n)) (rest.map (shiftPos (d2 + n)))
termination_by _ DP => DP.length
decreasing_by simp

/-- The `new_content` the scan produces: each tag pair together with the text
between the tags replaced by the placeholder. -/
def expNew (n : Nat) : List Char → List (Nat × Nat) → List Char
  | content, [] => content
  | content, (d1, d2) :: rest =>
    content.take d1 ++ tex_replace
      ++ expNew n (content.drop (d2 + n)) (rest.map (shiftPos (d2 + n)))
termination_by _ DP => DP.length
decreasing_by simp

theorem pairPositions_map (f : Nat → Nat) :
    ∀ DP : List (Nat × Nat),
      pairPositions (DP.map (fun q => (f q.1, f q.2))) = (pairPositions DP).map f := by
  intro DP
  induction DP with
  | nil => rfl
  | cons q rest ih => simp [pairPositions, ih]

theorem pairPositions_map' (g : Nat × Nat → Nat × Nat) (f : Nat → Nat)
    (hg : ∀ q, g q = (f q.1, f q.2)) :
    ∀ DP : List (Nat × Nat), pairPositions (DP.map g) = (pairPositions DP).map f := by
  intro DP
  induction DP with
  | nil => rfl
  | cons q rest ih => simp [pairPositions, ih, hg q]

theorem Gapped.tail {n : Nat} {a : Nat} {l : List Nat} (h : Gapped n (a :: l)) :
    Gapped n l := by
  cases l with
  | nil => trivial
  | cons b rest => exact h.2

theorem Gapped.head_le {n : Nat} {a : Nat} {l : List Nat} (h : Gapped n (a :: l)) :
    ∀ b ∈ l, a + n ≤ b := by
  induction l generalizing a with
  | nil => intro b hb; cases hb
  | cons c rest ih =>
    intro b hb
    rcases List.mem_cons.1 hb with rfl | hb'
    · exact h.1
    · have h1 := h.1
      have h2 := ih h.2 b hb'
      omega

theorem Gapped.head_min {n : Nat} {a : Nat} {l : List Nat} (h : Gapped n (a :: l)) :
    ∀ b ∈ a :: l, a ≤ b := by
  intro b hb
  rcases List.mem_cons.1 hb with h1 | hb'
  · exact Nat.le_of_eq h1.symm
  · have := h.head_le b hb'
    omega

theorem Gapped.map_shift {n sub add : Nat} :
    ∀ {l : List Nat}, Gapped n l → (∀ b ∈ l, sub ≤ b) →
      Gapped n (l.map (fun q => q - sub + add)) := by
  intro l
  induction l with
  | nil => intro _ _; trivial
  | cons a rest ih =>
    intro h hsub
    cases rest with
    | nil => trivial
    | cons b rest' =>
      refine ⟨?_, ih h.2 (fun c hc => hsub c (List.mem_cons_of_mem a hc))⟩
      have h1 := h.1
      have h2 : sub ≤ a := hsub a (List.mem_cons_self a _)
      have h3 : sub ≤ b := hsub b (List.mem_cons_of_mem a (List.mem_cons_self b _))
      simp only []
      omega

theorem occursAt_drop {p s : List Char} (k j : Nat) :
    occursAt p (s.drop k) j ↔ occursAt p s (k + j) := by
  unfold occursAt
  rw [List.drop_drop]

theorem length_take_add {s : List Char} {d : Nat} (h : d ≤ s.length) :
    (s.take d ++ tex_replace).length = d + 12 := by
  simp [List.length_take, List.length_append, tex_replace, str]
  omega

theorem tex_replace_ne : tex_replace ≠ [] := by decide

theorem tex_replace_length : tex_replace.length = 12 := rfl

theorem tex_replace_zero : tex_replace[0]? = some '[' := rfl

theorem tex_replace_eleven : tex_replace[11]? = some ']' := rfl

theorem toList_map {α β : Type} (f : α → β) (o : Option α) :
    (o.map f).toList = o.toList.map f := by
  cases o <;> rfl

theorem expSnips_nil (n : Nat) (content : List Char) : expSnips n content [] = [] := by
  simp [expSnips]

theorem expSnips_cons (n : Nat) (content : List Char) (d1 d2 : Nat)
    (rest : List (Nat × Nat)) :
    expSnips n content ((d1, d2) :: rest) =
      (content.drop (d1 + n)).take (d2 - (d1 + n)) ::
        expSnips n (content.drop (d2 + n)) (rest.map (shiftPos (d2 + n))) := by
  rw [expSnips]

theorem expNew_nil (n : Nat) (content : List Char) : expNew n content [] = content := by
  simp [expNew]

theorem expNew_cons (n : Nat) (content : List Char) (d1 d2 : Nat)
    (rest : List (Nat × Nat)) :
    expNew n content ((d1, d2) :: rest) =
      content.take d1 ++ tex_replace
        ++ expNew n (content.drop (d2 + n)) (rest.map (shiftPos (d2 + n))) := by
  rw [expNew]

theorem expSnips_append (n : Nat) (A s : List Char) (DP : List (Nat × Nat)) :
    expSnips n (A ++ s) (DP.map (fun q => (q.1 + A.length, q.2 + A.length))) =
      expSnips n s DP := by
  cases DP with
  | nil => rw [List.map_nil, expSnips_nil, expSnips_nil]
  | cons q rest =>
    obtain ⟨d1, d2⟩ := q
    rw [List.map_cons, expSnips_cons, expSnips_cons]
    have e1 : d1 + A.length + n = A.length + (d1 + n) := by omega
    have e2 : d2 + A.length + n = A.length + (d2 + n) := by omega
    have e3 : d2 + A.length - (d1 + A.length + n) = d2 - (d1 + n) := by omega
    have e4 : (rest.map (fun q => (q.1 + A.length, q.2 + A.length))).map
        (shiftPos (d2 + A.length + n)) = rest.map (shiftPos (d2 + n)) := by
      rw [List.map_map]
      apply List.map_congr_left
      intro q _
      show (q.1 + A.length - (d2 + A.length + n), q.2 + A.length - (d2 + A.length + n))
        = (q.1 - (d2 + n), q.2 - (d2 + n))
      simp only [Prod.mk.injEq]
      omega
    dsimp only
    rw [e3, e4, e1, e2, List.drop_append, List.drop_append]

theorem expNew_append (n : Nat) (A s : List Char) (DP : List (Nat × Nat)) :
    expNew n (A ++ s) (DP.map (fun q => (q.1 + A.length, q.2 + A.length))) =
      A ++ expNew n s DP := by
  cases DP with
  | nil => rw [List.map_nil, expNew_nil, expNew_nil]
  | cons q rest =>
    obtain ⟨d1, d2⟩ := q
    rw [List.map_cons, expNew_cons, expNew_cons]
    have e1 : d1 + A.length = A.length + d1 := by omega
    have e2 : d2 + A.length + n = A.length + (d2 + n) := by omega
    have e4 : (rest.map (fun q => (q.1 + A.length, q.2 + A.length))).map
        (shiftPos (d2 + A.length + n)) = rest.map (shiftPos (d2 + n)) := by
      rw [List.map_map]
      apply List.map_congr_left
      intro q _
      show (q.1 + A.length - (d2 + A.length + n), q.2 + A.length - (d2 + A.length + n))
        = (q.1 - (d2 + n), q.2 - (d2 + n))
      simp only [Prod.mk.injEq]
      omega
    dsimp only
    rw [e4, e1, e2, List.take_append, List.drop_append, List.append_assoc, List.append_assoc,
      List.append_assoc (s.take d1) tex_replace]

theorem Gapped_cons₂ {n a b : Nat} {l : List Nat} :
    Gapped n (a :: b :: l) ↔ (a + n ≤ b ∧ Gapped n (b :: l)) := Iff.rfl

theorem occursAt_middle (x m y : List Char) : occursAt m (x ++ m ++ y) x.length := by
  rw [List.append_assoc]
  have h0 : occursAt m (m ++ y) 0 := occursAt_zero_iff.2 (List.take_left _ _)
  have h1 := (occursAt_shift (p := m) (x := x) (y := m ++ y) 0).2 h0
  simpa using h1

/-- If the only tag occurrences of `content` are at `topt` (one unmatched
occurrence) or nowhere, the scan loop body stops. -/
theorem scanStep_none {tag : List Char} (htag : tag ≠ []) {content : List Char}
    {topt : Option Nat}
    (hchar : ∀ i, occursAt tag content i ↔ i ∈ topt.toList) :
    scanStep tag content = none := by
  cases topt with
  | none =>
    have h : firstIdx? tag content = none := by
      apply (firstIdx?_eq_none_iff htag content).2
      intro i hi
      simpa using (hchar i).1 hi
    simp [scanStep, h]
  | some t =>
    have hn : 0 < tag.length := List.length_pos.2 htag
    have h1 : firstIdx? tag content = some t := by
      apply (firstIdx?_eq_some_iff htag content t).2
      refine ⟨(hchar t).2 (by simp), ?_⟩
      intro j hj hcj
      have hmem := (hchar j).1 hcj
      simp at hmem
      omega
    have h2 : firstIdx? tag (content.drop (t + tag.length)) = none := by
      apply (firstIdx?_eq_none_iff htag _).2
      intro j hj
      have hocc := (occursAt_drop (t + tag.length) j).1 hj
      have hmem := (hchar _).1 hocc
      simp at hmem
      omega
    simp [scanStep, h1, h2]

/-- Core correctness of the `find_texsnips` loop.  Suppose the tag contains
neither `'['` nor `']'`, does not occur in the placeholder, and the tag
occurrences of `content` are exactly the positions `pairPositions DP` of the
pairs plus an optional unmatched trailing occurrence `topt`, in increasing
order and non-overlapping (`Gapped`).  Then with enough fuel the loop returns:
snippets = the text strictly between the two tags of each pair, in order, and
new content = the document with each pair (tags and inner text) replaced by
the placeholder (an unmatched trailing occurrence is left in place). -/
theorem find_texsnips_spec {tag : List Char} (htag : tag ≠ [])
    (hlb : '[' ∉ tag) (hrb : ']' ∉ tag)
    (hP : ∀ j, ¬ occursAt tag tex_replace j) :
    ∀ (k : Nat) (DP : List (Nat × Nat)) (content : List Char) (topt : Option Nat)
      (fuel : Nat), DP.length = k → k < fuel →
      (∀ i, occursAt tag content i ↔ i ∈ pairPositions DP ++ topt.toList) →
      Gapped tag.length (pairPositions DP ++ topt.toList) →
      find_texsnips tag fuel content =
        some (expSnips tag.length content DP, expNew tag.length content DP) := by
  intro k
  induction k with
  | zero =>
    intro DP content topt fuel hlen hfuel hchar _
    have hDP : DP = [] := List.length_eq_zero.1 hlen
    subst hDP
    obtain ⟨fuel', rfl⟩ : ∃ f, fuel = f + 1 := ⟨fuel - 1, by omega⟩
    have hchar' : ∀ i, occursAt tag content i ↔ i ∈ topt.toList := by
      intro i
      have := hchar i
      simpa [pairPositions] using this
    have hs : scanStep tag content = none := scanStep_none htag hchar'
    rw [expSnips_nil, expNew_nil]
    simp [find_texsnips, hs]
  | succ k ih =>
    intro DP content topt fuel hlen hfuel hchar hgap
    cases DP with
    | nil => simp at hlen
    | cons q rest =>
    obtain ⟨d1, d2⟩ := q
    have hlen' : rest.length = k := by simpa using hlen
    have hn : 0 < tag.length := List.length_pos.2 htag
    have hL : pairPositions ((d1, d2) :: rest) ++ topt.toList
        = d1 :: d2 :: (pairPositions rest ++ topt.toList) := by
      simp [pairPositions]
    rw [hL] at hchar hgap
    have hg12 : d1 + tag.length ≤ d2 := hgap.1
    have hgR : Gapped tag.length (d2 :: (pairPositions rest ++ topt.toList)) := hgap.2
    have hRge : ∀ b ∈ pairPositions rest ++ topt.toList, d2 + tag.length ≤ b :=
      hgR.head_le
    have hocc1 : occursAt tag content d1 := (hchar d1).2 (by simp)
    have hocc2 : occursAt tag content d2 := (hchar d2).2 (by simp)
    have hd1le : d1 + tag.length ≤ content.length := occursAt.length_le htag hocc1
    have hA : firstIdx? tag content = some d1 := by
      apply (firstIdx?_eq_some_iff htag content d1).2
      refine ⟨hocc1, ?_⟩
      intro j hj hcj
      have hmem := (hchar j).1 hcj
      have := hgap.head_min j hmem
      omega
    have hB : firstIdx? tag (content.drop (d1 + tag.length))
        = some (d2 - (d1 + tag.length)) := by
      apply (firstIdx?_eq_some_iff htag _ _).2
      constructor
      · rw [occursAt_drop]
        have he : d1 + tag.length + (d2 - (d1 + tag.length)) = d2 := by omega
        rw [he]
        exact hocc2
      · intro j hj hcj
        rw [occursAt_drop] at hcj
        have hmem := (hchar _).1 hcj
        rcases List.mem_cons.1 hmem with h' | hmem'
        · omega
        rcases List.mem_cons.1 hmem' with h' | hmem''
        · omega
        · have := hRge _ hmem''
          omega
    have hs : scanStep tag content =
        some ((content.drop (d1 + tag.length)).take (d2 - (d1 + tag.length)),
          content.take d1 ++ tex_replace ++ content.drop (d2 + tag.length)) := by
      have hdd : (content.drop (d1 + tag.length)).drop
          (d2 - (d1 + tag.length) + tag.length) = content.drop (d2 + tag.length) := by
        rw [List.drop_drop]
        congr 1
        omega
      simp only [scanStep, hA, hB]
      rw [hdd]
    have hAlen : (content.take d1 ++ tex_replace).length = d1 + 12 :=
      length_take_add (by omega)
    have htklen : (content.take d1).length = d1 := by
      rw [List.length_take]
      omega
    have hoccP : occursAt tex_replace
        (content.take d1 ++ tex_replace ++ content.drop (d2 + tag.length)) d1 := by
      have h := occursAt_middle (content.take d1) tex_replace
        (content.drop (d2 + tag.length))
      rwa [htklen] at h
    have hcharN : ∀ i, occursAt tag
        (content.take d1 ++ tex_replace ++ content.drop (d2 + tag.length)) i ↔
        i ∈ (pairPositions rest ++ topt.toList).map
          (fun b => b - (d2 + tag.length) + (d1 + 12)) := by
      intro i
      constructor
      · intro hi
        by_cases hc1 : i + tag.length ≤ d1
        · exfalso
          have h1 : occursAt tag
              (content.take d1 ++ (tex_replace ++ content.drop (d2 + tag.length))) i := by
            rwa [← List.append_assoc]
          have h2 : occursAt tag (content.take d1) i :=
            occursAt_left_of_le h1 (by rw [htklen]; omega)
          have h3 : occursAt tag content i := occursAt_of_take h2
          have hmem := (hchar i).1 h3
          have := hgap.head_min i hmem
          omega
        by_cases hc2 : i ≤ d1
        · exfalso
          have hbr : (content.take d1 ++ tex_replace
              ++ content.drop (d2 + tag.length))[d1]? = some '[' := by
            have h := occursAt_getElem?_self tex_replace_ne hoccP
            rwa [tex_replace_zero] at h
          exact hlb (occursAt_covered_mem hi hc2 (by omega) hbr)
        by_cases hc3 : i < d1 + 12
        · by_cases hc4 : i + tag.length ≤ d1 + 12
          · exfalso
            have h2 : occursAt tag (content.take d1 ++ tex_replace) i :=
              occursAt_left_of_le hi (by rw [hAlen]; omega)
            have hieq : i = (content.take d1).length + (i - d1) := by
              rw [htklen]; omega
            rw [hieq] at h2
            exact hP _ ((occursAt_shift _).1 h2)
          · exfalso
            have hbr : (content.take d1 ++ tex_replace
                ++ content.drop (d2 + tag.length))[d1 + 11]? = some ']' := by
              have h := occursAt_getElem? (j := d1 + 11) hoccP (by omega)
                (by rw [tex_replace_length]; omega)
              have he : d1 + 11 - d1 = 11 := by omega
              rwa [he, tex_replace_eleven] at h
            exact hrb (occursAt_covered_mem hi (by omega) (by omega) hbr)
        · have hieq : i = (content.take d1 ++ tex_replace).length + (i - (d1 + 12)) := by
            rw [hAlen]; omega
          rw [hieq] at hi
          have h1 := (occursAt_shift _).1 hi
          have h2 : occursAt tag content (d2 + tag.length + (i - (d1 + 12))) :=
            (occursAt_drop _ _).1 h1
          have hmem := (hchar _).1 h2
          rcases List.mem_cons.1 hmem with h' | hmem'
          · omega
          rcases List.mem_cons.1 hmem' with h' | hmem''
          · omega
          · refine List.mem_map.2 ⟨_, hmem'', ?_⟩
            have := hRge _ hmem''
            omega
      · intro hi
        rcases List.mem_map.1 hi with ⟨b, hb, rfl⟩
        have hbge := hRge b hb
        have hoccb : occursAt tag content b := (hchar b).2 (by simp [hb])
        have h1 : occursAt tag (content.drop (d2 + tag.length))
            (b - (d2 + tag.length)) := by
          rw [occursAt_drop]
          have he : d2 + tag.length + (b - (d2 + tag.length)) = b := by omega
          rw [he]
          exact hoccb
        have h2 := (occursAt_shift (x := content.take d1 ++ tex_replace)
          (b - (d2 + tag.length))).2 h1
        rw [hAlen] at h2
        have he : d1 + 12 + (b - (d2 + tag.length))
            = b - (d2 + tag.length) + (d1 + 12) := by omega
        rwa [he] at h2
    have hgapN : Gapped tag.length ((pairPositions rest ++ topt.toList).map
        (fun b => b - (d2 + tag.length) + (d1 + 12))) :=
      Gapped.map_shift hgR.tail hRge
    obtain ⟨fuel', rfl⟩ : ∃ f, fuel = f + 1 := ⟨fuel - 1, by omega⟩
    have hpp := pairPositions_map'
      (fun q => (q.1 - (d2 + tag.length) + (d1 + 12), q.2 - (d2 + tag.length) + (d1 + 12)))
      (fun b => b - (d2 + tag.length) + (d1 + 12)) (fun _ => rfl) rest
    have hconv : pairPositions (rest.map (fun q =>
          (q.1 - (d2 + tag.length) + (d1 + 12), q.2 - (d2 + tag.length) + (d1 + 12))))
        ++ (topt.map (fun b => b - (d2 + tag.length) + (d1 + 12))).toList
        = (pairPositions rest ++ topt.toList).map
          (fun b => b - (d2 + tag.length) + (d1 + 12)) := by
      rw [hpp, toList_map, List.map_append]
    have hIH := ih (rest.map (fun q =>
        (q.1 - (d2 + tag.length) + (d1 + 12), q.2 - (d2 + tag.length) + (d1 + 12))))
      (content.take d1 ++ tex_replace ++ content.drop (d2 + tag.length))
      (topt.map (fun b => b - (d2 + tag.length) + (d1 + 12)))
      fuel' (by rw [List.length_map]; exact hlen') (by omega)
      (by intro i; rw [hconv]; exact hcharN i)
      (by rw [hconv]; exact hgapN)
    have hsplit : rest.map (fun q =>
        (q.1 - (d2 + tag.length) + (d1 + 12), q.2 - (d2 + tag.length) + (d1 + 12)))
        = (rest.map (shiftPos (d2 + tag.length))).map (fun q =>
          (q.1 + (content.take d1 ++ tex_replace).length,
           q.2 + (content.take d1 ++ tex_replace).length)) := by
      rw [List.map_map]
      apply List.map_congr_left
      intro q _
      show (q.1 - (d2 + tag.length) + (d1 + 12), q.2 - (d2 + tag.length) + (d1 + 12))
        = ((shiftPos (d2 + tag.length) q).1 + (content.take d1 ++ tex_replace).length,
           (shiftPos (d2 + tag.length) q).2 + (content.take d1 ++ tex_replace).length)
      rw [hAlen]
      rfl
    rw [hsplit] at hIH
    rw [expSnips_append, expNew_append] at hIH
    show find_texsnips tag (fuel' + 1) content = _
    rw [find_texsnips, hs]
    dsimp only
    rw [hIH]
    rw [expSnips_cons, expNew_cons]

-- ------------------------------------------------------------------
-- Counting occurrences

theorem occursAt_big_of_lt {p s : List Char} (hp : p ≠ []) {i : Nat}
    (hi : s.length ≤ i) : ¬ occursAt p s i := by
  intro h
  have := occursAt.length_le hp h
  have := List.length_pos.2 hp
  omega

/-- If the occurrences of `p` in `s` are exactly the members of a `Nodup`
list `L` of valid positions, then `countOcc` is the length of `L`. -/
theorem countOcc_eq_length {p s : List Char} {L : List Nat} (hp : p ≠ [])
    (hchar : ∀ i, occursAt p s i ↔ i ∈ L) (hnd : L.Nodup) :
    countOcc p s = L.length := by
  unfold countOcc
  rw [List.countP_eq_length_filter]
  have hperm : List.Perm ((List.range s.length).filter
      (fun i => decide (occursAt p s i))) L := by
    rw [List.perm_ext_iff_of_nodup ((List.nodup_range s.length).filter _) hnd]
    intro a
    rw [List.mem_filter, List.mem_range]
    constructor
    · rintro ⟨-, ha⟩
      exact (hchar a).1 (of_decide_eq_true ha)
    · intro ha
      have hocc := (hchar a).2 ha
      have hlt : a < s.length := by
        by_contra hge
        exact occursAt_big_of_lt hp (by omega) hocc
      exact ⟨hlt, decide_eq_true hocc⟩
  exact hperm.length_eq

theorem Gapped_nodup {n : Nat} (hn : 0 < n) :
    ∀ {l : List Nat}, Gapped n l → l.Nodup := by
  intro l
  induction l with
  | nil => intro _; exact List.nodup_nil
  | cons a rest ih =>
    intro h
    rw [List.nodup_cons]
    refine ⟨?_, ih h.tail⟩
    intro hmem
    have := h.head_le a hmem
    omega

/-- Splitting an occurrence count at a junction no occurrence spans. -/
theorem countOcc_split {p : List Char} (x y : List Char)
    (hnospan : ∀ i, occursAt p (x ++ y) i → i + p.length ≤ x.length ∨ x.length ≤ i) :
    countOcc p (x ++ y) = countOcc p x + countOcc p y := by
  unfold countOcc
  rw [List.length_append, List.range_add x.length y.length, List.countP_append,
    List.countP_map]
  congr 1
  · apply List.countP_congr
    intro i hi
    rw [List.mem_range] at hi
    constructor
    · intro h
      have hocc := of_decide_eq_true h
      rcases hnospan i hocc with hle | hge
      · exact decide_eq_true (occursAt_left_of_le hocc hle)
      · omega
    · intro h
      exact decide_eq_true (occursAt_append_left y (of_decide_eq_true h))
  · apply List.countP_congr
    intro j _
    have hshift := occursAt_shift (p := p) (x := x) (y := y) j
    constructor
    · intro h
      exact decide_eq_true (hshift.1 (of_decide_eq_true h))
    · intro h
      exact decide_eq_true (hshift.2 (of_decide_eq_true h))

theorem tex_replace_bracket_unique :
    ∀ m, m < 12 → tex_replace[m]? = some '[' → m = 0 := by decide

/-- No occurrence of the placeholder can span a junction that is immediately
followed by the placeholder itself (its characters are pairwise distinct). -/
theorem P_nospan (x y : List Char) :
    ∀ i, occursAt tex_replace (x ++ (tex_replace ++ y)) i →
      i + tex_replace.length ≤ x.length ∨ x.length ≤ i := by
  intro i hocc
  by_cases hle : x.length ≤ i
  · exact Or.inr hle
  left
  by_contra hcross
  have hx : (x ++ (tex_replace ++ y))[x.length]? = some '[' := by
    have h0 : occursAt tex_replace (tex_replace ++ y) 0 :=
      occursAt_zero_iff.2 (List.take_left _ _)
    have h1 := (occursAt_shift (x := x) 0).2 h0
    have h2 := occursAt_getElem?_self tex_replace_ne h1
    rw [tex_replace_zero] at h2
    simpa using h2
  have h3 := occursAt_getElem? (j := x.length) hocc (by omega) (by omega)
  rw [hx] at h3
  have h4 := tex_replace_bracket_unique (x.length - i)
    (by rw [tex_replace_length] at hcross; omega) h3.symm
  omega

theorem countOcc_P_self (y : List Char) :
    countOcc tex_replace (tex_replace ++ y) = 1 + countOcc tex_replace y := by
  have h := countOcc_split tex_replace y (by
    intro i hocc
    by_cases hle : tex_replace.length ≤ i
    · exact Or.inr hle
    · left
      have hfirst := occursAt_getElem?_self tex_replace_ne hocc
      rw [tex_replace_zero] at hfirst
      rw [List.getElem?_append_left (by omega)] at hfirst
      have hz := tex_replace_bracket_unique i
        (by rw [tex_replace_length] at hle; omega) hfirst
      omega)
  rw [h, show countOcc tex_replace tex_replace = 1 from by decide]

theorem countOcc_P_middle (x y : List Char) :
    countOcc tex_replace (x ++ tex_replace ++ y)
      = countOcc tex_replace x + 1 + countOcc tex_replace y := by
  rw [List.append_assoc, countOcc_split x (tex_replace ++ y) (P_nospan x y),
    countOcc_P_self]
  omega

/-- The text segments outside the tag pairs (as they appear in the scanned
document) contain no occurrence of the placeholder. -/
def segsPFree (n : Nat) : List Char → List (Nat × Nat) → Bool
  | content, [] => countOcc tex_replace content == 0
  | content, (d1, d2) :: rest =>
    (countOcc tex_replace (content.take d1) == 0)
      && segsPFree n (content.drop (d2 + n)) (rest.map (shiftPos (d2 + n)))
termination_by _ DP => DP.length
decreasing_by simp

theorem segsPFree_nil {n : Nat} {content : List Char} :
    segsPFree n content [] = (countOcc tex_replace content == 0) := by
  rw [segsPFree]

theorem segsPFree_cons {n : Nat} {content : List Char} {d1 d2 : Nat}
    {rest : List (Nat × Nat)} :
    segsPFree n content ((d1, d2) :: rest)
      = ((countOcc tex_replace (content.take d1) == 0)
        && segsPFree n (content.drop (d2 + n)) (rest.map (shiftPos (d2 + n)))) := by
  rw [segsPFree]

/-- If the segments outside the pairs are placeholder-free, the scanned
document contains exactly one placeholder occurrence per pair. -/
theorem countOcc_expNew (n : Nat) :
    ∀ (k : Nat) (DP : List (Nat × Nat)) (content : List Char), DP.length = k →
      segsPFree n content DP = true →
      countOcc tex_replace (expNew n content DP) = DP.length := by
  intro k
  induction k with
  | zero =>
    intro DP content hlen hfree
    have hDP : DP = [] := List.length_eq_zero.1 hlen
    subst hDP
    rw [expNew_nil]
    rw [segsPFree_nil] at hfree
    simpa using hfree
  | succ k ih =>
    intro DP content hlen hfree
    cases DP with
    | nil => simp at hlen
    | cons q rest =>
    obtain ⟨d1, d2⟩ := q
    rw [segsPFree_cons, Bool.and_eq_true, beq_iff_eq] at hfree
    rw [expNew_cons, countOcc_P_middle, hfree.1,
      ih (rest.map (shiftPos (d2 + n))) (content.drop (d2 + n))
        (by rw [List.length_map]; simpa using hlen) hfree.2]
    simp only [List.length_map, List.length_cons]
    omega

-- ------------------------------------------------------------------
-- Reinsertion

/-- Alternation of text segments with the placeholder between consecutive
segments: `s0 ++ P ++ s1 ++ P ++ ... ++ sk`. -/
def interP : List (List Char) → List Char
  | [] => []
  | [s] => s
  | s :: s2 :: rest => s ++ tex_replace ++ interP (s2 :: rest)

/-- Alternation of text segments with one replacement string between
consecutive segments: `s0 ++ r0 ++ s1 ++ r1 ++ ... ++ sk`. -/
def interR : List (List Char) → List (List Char) → List Char
  | [], _ => []
  | s :: _, [] => s
  | s :: rest, r :: rs => s ++ r ++ interR rest rs

/-- The replacement strings `insert_images_in_md` substitutes for the
placeholders, starting at ordinal `i0`: the image link for a converted
snippet, the raw snippet text for a failed one. -/
def reps (bad : List Nat) : Nat → List (List Char) → List (List Char)
  | _, [] => []
  | i0, snip :: rest =>
    (if i0 ∈ bad then snip else imageLink i0) :: reps bad (i0 + 1) rest

theorem interP_cons₂ (s s2 : List Char) (rest : List (List Char)) :
    interP (s :: s2 :: rest) = s ++ tex_replace ++ interP (s2 :: rest) := rfl

theorem interR_cons (s : List Char) (rest : List (List Char)) (r : List Char)
    (rs : List (List Char)) :
    interR (s :: rest) (r :: rs) = s ++ r ++ interR rest rs := rfl

/-- Core correctness of the reinsertion loop: on a document alternating
placeholder-free segments with placeholders, one placeholder is consumed per
snippet, in order, provided the finished document contains no occurrence of
the placeholder string (in particular none formed across junctions). -/
theorem insertLoop_spec (bad : List Nat) :
    ∀ (snips : List (List Char)) (i0 : Nat) (segs : List (List Char))
      (pre : List Char), segs.length = snips.length + 1 →
      (∀ i, ¬ occursAt tex_replace (pre ++ interR segs (reps bad i0 snips)) i) →
      insertLoop bad snips i0 (pre ++ interP segs)
        = pre ++ interR segs (reps bad i0 snips) := by
  intro snips
  induction snips with
  | nil =>
    intro i0 segs pre hlen _
    obtain ⟨s, rfl⟩ : ∃ s, segs = [s] := by
      cases segs with
      | nil => simp at hlen
      | cons s rest =>
        cases rest with
        | nil => exact ⟨s, rfl⟩
        | cons _ _ => simp at hlen
    rfl
  | cons t ts ih =>
    intro i0 segs pre hlen hfree
    obtain ⟨s, s2, rest, rfl⟩ : ∃ s s2 rest, segs = s :: s2 :: rest := by
      cases segs with
      | nil => simp at hlen
      | cons s rest =>
        cases rest with
        | nil => simp at hlen
        | cons s2 rest' => exact ⟨s, s2, rest', rfl⟩
    have hlen' : (s2 :: rest).length = ts.length + 1 := by simpa using hlen
    have hr : reps bad i0 (t :: ts)
        = (if i0 ∈ bad then t else imageLink i0) :: reps bad (i0 + 1) ts := rfl
    have hfree' : ∀ i, ¬ occursAt tex_replace
        (((pre ++ s) ++ (if i0 ∈ bad then t else imageLink i0))
          ++ interR (s2 :: rest) (reps bad (i0 + 1) ts)) i := by
      intro i
      have h := hfree i
      rw [hr, interR_cons] at h
      intro hc
      apply h
      have : pre ++ (s ++ (if i0 ∈ bad then t else imageLink i0)
          ++ interR (s2 :: rest) (reps bad (i0 + 1) ts))
          = ((pre ++ s) ++ (if i0 ∈ bad then t else imageLink i0))
            ++ interR (s2 :: rest) (reps bad (i0 + 1) ts) := by
        simp [List.append_assoc]
      rw [this]
      exact hc
    have hfin : pre ++ interR (s :: s2 :: rest) (reps bad i0 (t :: ts))
        = ((pre ++ s) ++ (if i0 ∈ bad then t else imageLink i0))
          ++ interR (s2 :: rest) (reps bad (i0 + 1) ts) := by
      rw [hr, interR_cons]
      simp [List.append_assoc]
    have hcontent : pre ++ interP (s :: s2 :: rest)
        = (pre ++ s) ++ (tex_replace ++ interP (s2 :: rest)) := by
      rw [interP_cons₂]
      simp [List.append_assoc]
    have hfi : firstIdx? tex_replace
        ((pre ++ s) ++ (tex_replace ++ interP (s2 :: rest))) = some (pre ++ s).length := by
      apply (firstIdx?_eq_some_iff tex_replace_ne _ _).2
      constructor
      · have h := occursAt_middle (pre ++ s) tex_replace (interP (s2 :: rest))
        rwa [List.append_assoc] at h
      · intro j hj hcj
        rcases P_nospan (pre ++ s) (interP (s2 :: rest)) j hcj with hle | hge
        · have h2 : occursAt tex_replace (pre ++ s) j := occursAt_left_of_le hcj hle
          apply hfree j
          rw [hfin]
          exact occursAt_append_left _ (occursAt_append_left _ h2)
        · omega
    have hrepl : replaceOnce tex_replace (if i0 ∈ bad then t else imageLink i0)
        ((pre ++ s) ++ (tex_replace ++ interP (s2 :: rest)))
        = ((pre ++ s) ++ (if i0 ∈ bad then t else imageLink i0))
          ++ interP (s2 :: rest) := by
      unfold replaceOnce
      rw [hfi]
      dsimp only
      have h1 : ((pre ++ s) ++ (tex_replace ++ interP (s2 :: rest))).take (pre ++ s).length
          = pre ++ s := List.take_left _ _
      have h2 : ((pre ++ s) ++ (tex_replace ++ interP (s2 :: rest))).drop
          ((pre ++ s).length + tex_replace.length)
          = interP (s2 :: rest) := by
        rw [List.drop_append tex_replace.length, List.drop_left]
      rw [h1, h2]
    show insertLoop bad (t :: ts) i0 (pre ++ interP (s :: s2 :: rest)) = _
    rw [hcontent, hfin]
    by_cases hbad : i0 ∈ bad
    · rw [show insertLoop bad (t :: ts) i0 ((pre ++ s) ++ (tex_replace ++ interP (s2 :: rest)))
          = insertLoop bad ts (i0 + 1) (replaceOnce tex_replace t
            ((pre ++ s) ++ (tex_replace ++ interP (s2 :: rest)))) from by
        simp [insertLoop, hbad]]
      rw [show replaceOnce tex_replace t ((pre ++ s) ++ (tex_replace ++ interP (s2 :: rest)))
          = ((pre ++ s) ++ t) ++ interP (s2 :: rest) from by
        have := hrepl
        rw [if_pos hbad] at this
        exact this]
      have hIH := ih (i0 + 1) (s2 :: rest) ((pre ++ s) ++ t) hlen' (by
        intro i
        have := hfree' i
        rwa [if_pos hbad] at this)
      rw [hIH]
      rw [if_pos hbad]
    · rw [show insertLoop bad (t :: ts) i0 ((pre ++ s) ++ (tex_replace ++ interP (s2 :: rest)))
          = insertLoop bad ts (i0 + 1) (replaceOnce tex_replace (imageLink i0)
            ((pre ++ s) ++ (tex_replace ++ interP (s2 :: rest)))) from by
        simp [insertLoop, hbad]]
      rw [show replaceOnce tex_replace (imageLink i0)
            ((pre ++ s) ++ (tex_replace ++ interP (s2 :: rest)))
          = ((pre ++ s) ++ imageLink i0) ++ interP (s2 :: rest) from by
        have := hrepl
        rw [if_neg hbad] at this
        exact this]
      have hIH := ih (i0 + 1) (s2 :: rest) ((pre ++ s) ++ imageLink i0) hlen' (by
        intro i
        have := hfree' i
        rwa [if_neg hbad] at this)
      rw [hIH]
      rw [if_neg hbad]

-- ------------------------------------------------------------------
-- Bridges and decidability

def decGapped (n : Nat) : (l : List Nat) → Decidable (Gapped n l)
  | [] => isTrue trivial
  | [_] => isTrue trivial
  | a :: b :: rest =>
    match decGapped n (b :: rest) with
    | isTrue h =>
      if h2 : a + n ≤ b then isTrue ⟨h2, h⟩ else isFalse (fun hc => h2 hc.1)
    | isFalse h => isFalse (fun hc => h hc.2)

instance (n : Nat) (l : List Nat) : Decidable (Gapped n l) := decGapped n l

theorem pairPositions_length : ∀ DP : List (Nat × Nat),
    (pairPositions DP).length = 2 * DP.length := by
  intro DP
  induction DP with
  | nil => rfl
  | cons q rest ih => simp [pairPositions, ih]; omega

theorem expSnips_length (n : Nat) : ∀ (k : Nat) (DP : List (Nat × Nat))
    (content : List Char), DP.length = k → (expSnips n content DP).length = k := by
  intro k
  induction k with
  | zero =>
    intro DP content hlen
    have : DP = [] := List.length_eq_zero.1 hlen
    subst this
    rw [expSnips_nil]
    rfl
  | succ k ih =>
    intro DP content hlen
    cases DP with
    | nil => simp at hlen
    | cons q rest =>
      obtain ⟨d1, d2⟩ := q
      rw [expSnips_cons]
      rw [List.length_cons, ih (rest.map (shiftPos (d2 + n))) (content.drop (d2 + n))
        (by rw [List.length_map]; simpa using hlen)]

/-- The text segments outside the tag pairs, in document order (`k` pairs give
`k + 1` segments). -/
def segsOf (n : Nat) : List Char → List (Nat × Nat) → List (List Char)
  | content, [] => [content]
  | content, (d1, d2) :: rest =>
    content.take d1 :: segsOf n (content.drop (d2 + n)) (rest.map (shiftPos (d2 + n)))
termination_by _ DP => DP.length
decreasing_by simp

theorem segsOf_nil (n : Nat) (content : List Char) : segsOf n content [] = [content] := by
  rw [segsOf]

theorem segsOf_cons (n : Nat) (content : List Char) (d1 d2 : Nat)
    (rest : List (Nat × Nat)) :
    segsOf n content ((d1, d2) :: rest) =
      content.take d1 :: segsOf n (content.drop (d2 + n)) (rest.map (shiftPos (d2 + n))) := by
  rw [segsOf]

theorem segsOf_length (n : Nat) : ∀ (k : Nat) (DP : List (Nat × Nat))
    (content : List Char), DP.length = k → (segsOf n content DP).length = k + 1 := by
  intro k
  induction k with
  | zero =>
    intro DP content hlen
    have : DP = [] := List.length_eq_zero.1 hlen
    subst this
    rw [segsOf_nil]
    rfl
  | succ k ih =>
    intro DP content hlen
    cases DP with
    | nil => simp at hlen
    | cons q rest =>
      obtain ⟨d1, d2⟩ := q
      rw [segsOf_cons, List.length_cons,
        ih (rest.map (shiftPos (d2 + n))) (content.drop (d2 + n))
          (by rw [List.length_map]; simpa using hlen)]

/-- The scanned document is the alternation of the outside segments with
placeholders. -/
theorem expNew_eq_interP (n : Nat) : ∀ (k : Nat) (DP : List (Nat × Nat))
    (content : List Char), DP.length = k →
    expNew n content DP = interP (segsOf n content DP) := by
  intro k
  induction k with
  | zero =>
    intro DP content hlen
    have : DP = [] := List.length_eq_zero.1 hlen
    subst this
    rw [expNew_nil, segsOf_nil]
    rfl
  | succ k ih =>
    intro DP content hlen
    cases DP with
    | nil => simp at hlen
    | cons q rest =>
      obtain ⟨d1, d2⟩ := q
      rw [expNew_cons, segsOf_cons]
      have hlen' : (rest.map (shiftPos (d2 + n))).length = k := by
        rw [List.length_map]; simpa using hlen
      have hne : segsOf n (content.drop (d2 + n)) (rest.map (shiftPos (d2 + n))) ≠ [] := by
        intro hnil
        have := segsOf_length n k (rest.map (shiftPos (d2 + n))) (content.drop (d2 + n)) hlen'
        rw [hnil] at this
        simp at this
      obtain ⟨s2, rest2, hs⟩ : ∃ s2 rest2,
          segsOf n (content.drop (d2 + n)) (rest.map (shiftPos (d2 + n))) = s2 :: rest2 := by
        cases hsg : segsOf n (content.drop (d2 + n)) (rest.map (shiftPos (d2 + n))) with
        | nil => exact absurd hsg hne
        | cons a b => exact ⟨a, b, rfl⟩
      rw [ih (rest.map (shiftPos (d2 + n))) (content.drop (d2 + n)) hlen', hs, interP_cons₂]

-- ------------------------------------------------------------------
-- Count decrease and termination of the scan loop

theorem countOcc_eq_zero_iff {p s : List Char} :
    countOcc p s = 0 ↔ ∀ i, i < s.length → ¬ occursAt p s i := by
  unfold countOcc
  rw [List.countP_eq_zero]
  constructor
  · intro h i hi
    have := h i (List.mem_range.2 hi)
    intro hc
    exact absurd (decide_eq_true hc) (by simpa using this)
  · intro h i hi
    have := h i (List.mem_range.1 hi)
    simpa using this

theorem countOcc_ge_of_nodup {p s : List Char} (hp : p ≠ []) (D : List Nat)
    (hnd : D.Nodup) (hD : ∀ d ∈ D, occursAt p s d) : D.length ≤ countOcc p s := by
  unfold countOcc
  rw [List.countP_eq_length_filter]
  have hsub : D ⊆ (List.range s.length).filter (fun i => decide (occursAt p s i)) := by
    intro d hd
    rw [List.mem_filter, List.mem_range]
    have hocc := hD d hd
    have h1 := occursAt.length_le hp hocc
    have h2 := List.length_pos.2 hp
    exact ⟨by omega, decide_eq_true hocc⟩
  calc D.length = D.toFinset.card := (List.toFinset_card_of_nodup hnd).symm
  _ ≤ ((List.range s.length).filter
      (fun i => decide (occursAt p s i))).toFinset.card := by
    apply Finset.card_le_card
    intro x hx
    exact List.mem_toFinset.2 (hsub (List.mem_toFinset.1 hx))
  _ ≤ ((List.range s.length).filter (fun i => decide (occursAt p s i))).length :=
    List.toFinset_card_le _

/-- Any tag occurrence in `pre ++ placeholder ++ y` (with `pre` a prefix of the
document preceding its first tag occurrence, and the tag bracket-free and not
occurring in the placeholder) starts beyond the placeholder. -/
theorem occ_in_pre_P {tag : List Char} (htag : tag ≠ [])
    (hlb : '[' ∉ tag) (hrb : ']' ∉ tag)
    (hP : ∀ j, ¬ occursAt tag tex_replace j)
    {content : List Char} {idx : Nat}
    (hidxle : idx + tag.length ≤ content.length)
    (hmin1 : ∀ j, j < idx → ¬ occursAt tag content j) :
    ∀ (y : List Char) (i : Nat),
      occursAt tag (content.take idx ++ tex_replace ++ y) i → idx + 12 ≤ i := by
  intro y i hi
  have hn : 0 < tag.length := List.length_pos.2 htag
  have htk : (content.take idx).length = idx := by
    rw [List.length_take]
    omega
  have hoccP : occursAt tex_replace (content.take idx ++ tex_replace ++ y) idx := by
    have h := occursAt_middle (content.take idx) tex_replace y
    rwa [htk] at h
  by_contra hlow
  by_cases hc1 : i + tag.length ≤ idx
  · have h1 : occursAt tag (content.take idx ++ (tex_replace ++ y)) i := by
      rwa [← List.append_assoc]
    have h2 : occursAt tag (content.take idx) i :=
      occursAt_left_of_le h1 (by rw [htk]; omega)
    exact hmin1 i (by omega) (occursAt_of_take h2)
  by_cases hc2 : i ≤ idx
  · have hbr : (content.take idx ++ tex_replace ++ y)[idx]? = some '[' := by
      have h := occursAt_getElem?_self tex_replace_ne hoccP
      rwa [tex_replace_zero] at h
    exact hlb (occursAt_covered_mem hi hc2 (by omega) hbr)
  by_cases hc4 : i + tag.length ≤ idx + 12
  · have h2 : occursAt tag (content.take idx ++ tex_replace) i :=
      occursAt_left_of_le hi (by rw [List.length_append, htk, tex_replace_length]; omega)
    have hieq : i = (content.take idx).length + (i - idx) := by
      rw [htk]
      omega
    rw [hieq] at h2
    exact hP _ ((occursAt_shift _).1 h2)
  · have hbr : (content.take idx ++ tex_replace ++ y)[idx + 11]? = some ']' := by
      have h := occursAt_getElem? (j := idx + 11) hoccP (by omega)
        (by rw [tex_replace_length]; omega)
      have he : idx + 11 - idx = 11 := by omega
      rwa [he, tex_replace_eleven] at h
    exact hrb (occursAt_covered_mem hi (by omega) (by omega) hbr)

theorem scanStep_some_elim {tag content : List Char} {snip content' : List Char}
    (h : scanStep tag content = some (snip, content')) :
    ∃ idx idx2, firstIdx? tag content = some idx ∧
      firstIdx? tag (content.drop (idx + tag.length)) = some idx2 ∧
      snip = (content.drop (idx + tag.length)).take idx2 ∧
      content' = content.take idx ++ tex_replace
        ++ content.drop (idx + tag.length + idx2 + tag.length) := by
  unfold scanStep at h
  cases h1 : firstIdx? tag content with
  | none =>
    rw [h1] at h
    dsimp only at h
    cases h
  | some idx =>
    rw [h1] at h
    dsimp only at h
    cases h2 : firstIdx? tag (content.drop (idx + tag.length)) with
    | none =>
      rw [h2] at h
      dsimp only at h
      cases h
    | some idx2 =>
      rw [h2] at h
      dsimp only at h
      injection h with h
      injection h with ha hb
      refine ⟨idx, idx2, rfl, h2, ha.symm, ?_⟩
      rw [← hb, List.drop_drop]
      congr 2
      omega

theorem scanStep_count_decrease {tag : List Char} (htag : tag ≠ [])
    (hlb : '[' ∉ tag) (hrb : ']' ∉ tag)
    (hP : ∀ j, ¬ occursAt tag tex_replace j) :
    ∀ (content snip content' : List Char),
      scanStep tag content = some (snip, content') →
      countOcc tag content' + 2 ≤ countOcc tag content := by
  intro content snip content' h
  obtain ⟨idx, idx2, h1, h2, -, hc'⟩ := scanStep_some_elim h
  obtain ⟨hocc1, hmin1⟩ := (firstIdx?_eq_some_iff htag content idx).1 h1
  obtain ⟨hocc2', hmin2⟩ := (firstIdx?_eq_some_iff htag _ idx2).1 h2
  have hn : 0 < tag.length := List.length_pos.2 htag
  have hidxle : idx + tag.length ≤ content.length := occursAt.length_le htag hocc1
  have htk : (content.take idx).length = idx := by
    rw [List.length_take]
    omega
  have hocc2 : occursAt tag content (idx + tag.length + idx2) :=
    (occursAt_drop _ _).1 hocc2'
  have hhigh := occ_in_pre_P htag hlb hrb hP hidxle hmin1
  -- the new content has exactly the occurrences of the untouched suffix
  have hsplit : countOcc tag content'
      = countOcc tag (content.take idx ++ tex_replace)
        + countOcc tag (content.drop (idx + tag.length + idx2 + tag.length)) := by
    rw [hc']
    rw [List.append_assoc, ← List.append_assoc]
    apply countOcc_split
    intro i hocc
    right
    have := hhigh _ i hocc
    rw [List.length_append, htk, tex_replace_length]
    omega
  have hzero : countOcc tag (content.take idx ++ tex_replace) = 0 := by
    rw [countOcc_eq_zero_iff]
    intro i hilen hocc
    have h1' : occursAt tag (content.take idx ++ tex_replace ++ []) i := by
      rwa [List.append_nil]
    have := hhigh [] i h1'
    rw [List.length_append, htk, tex_replace_length] at hilen
    have hle := occursAt.length_le htag hocc
    rw [List.length_append, htk, tex_replace_length] at hle
    omega
  -- lower bound for the original count
  have hlow : 2 + countOcc tag (content.drop (idx + tag.length + idx2 + tag.length))
      ≤ countOcc tag content := by
    have hF := List.countP_eq_length_filter
      (fun j => decide (occursAt tag
        (content.drop (idx + tag.length + idx2 + tag.length)) j))
      (List.range (content.drop (idx + tag.length + idx2 + tag.length)).length)
    have hDlen : (idx :: (idx + tag.length + idx2) ::
        ((List.range (content.drop (idx + tag.length + idx2 + tag.length)).length).filter
          (fun j => decide (occursAt tag
            (content.drop (idx + tag.length + idx2 + tag.length)) j))).map
          (fun j => idx + tag.length + idx2 + tag.length + j)).length
        = 2 + countOcc tag (content.drop (idx + tag.length + idx2 + tag.length)) := by
      simp only [List.length_cons, List.length_map]
      rw [← hF]
      unfold countOcc
      omega
    rw [← hDlen]
    apply countOcc_ge_of_nodup htag
    · rw [List.nodup_cons]
      constructor
      · intro hmem
        rcases List.mem_cons.1 hmem with he | hmem'
        · omega
        · rcases List.mem_map.1 hmem' with ⟨j, -, hj⟩
          have hj' : idx + tag.length + idx2 + tag.length + j = idx := hj
          omega
      rw [List.nodup_cons]
      constructor
      · intro hmem
        rcases List.mem_map.1 hmem with ⟨j, -, hj⟩
        have hj' : idx + tag.length + idx2 + tag.length + j = idx + tag.length + idx2 := hj
        omega
      apply List.Nodup.map
      · intro a b hab
        have hab' : idx + tag.length + idx2 + tag.length + a
            = idx + tag.length + idx2 + tag.length + b := hab
        omega
      · exact ((List.nodup_range _).filter _)
    · intro d hd
      rcases List.mem_cons.1 hd with rfl | hd'
      · exact hocc1
      rcases List.mem_cons.1 hd' with rfl | hd''
      · exact hocc2
      · rcases List.mem_map.1 hd'' with ⟨j, hj, rfl⟩
        rw [List.mem_filter] at hj
        have hjocc := of_decide_eq_true hj.2
        exact (occursAt_drop _ _).1 hjocc
  omega

theorem find_texsnips_total {tag : List Char} (htag : tag ≠ [])
    (hlb : '[' ∉ tag) (hrb : ']' ∉ tag)
    (hP : ∀ j, ¬ occursAt tag tex_replace j) :
    ∀ (cnt : Nat) (content : List Char), countOcc tag content ≤ cnt →
      (find_texsnips tag (cnt + 1) content).isSome = true := by
  intro cnt
  induction cnt with
  | zero =>
    intro content hcnt
    cases hs : scanStep tag content with
    | none => simp [find_texsnips, hs]
    | some pr =>
      obtain ⟨snip, content'⟩ := pr
      have := scanStep_count_decrease htag hlb hrb hP content snip content' hs
      omega
  | succ cnt ih =>
    intro content hcnt
    cases hs : scanStep tag content with
    | none => simp [find_texsnips, hs]
    | some pr =>
      obtain ⟨snip, content'⟩ := pr
      have hdec := scanStep_count_decrease htag hlb hrb hP content snip content' hs
      have hih := ih content' (by omega)
      rw [find_texsnips, hs]
      dsimp only
      cases hfv : find_texsnips tag (cnt + 1) content' with
      | none => rw [hfv] at hih; simp at hih
      | some v =>
        obtain ⟨snips, final⟩ := v
        simp

theorem find_texsnips_terminates {tag : List Char} (htag : tag ≠ [])
    (hlb : '[' ∉ tag) (hrb : ']' ∉ tag)
    (hP : ∀ j, ¬ occursAt tag tex_replace j) (content : List Char) :
    ∃ fuel, (find_texsnips tag fuel content).isSome = true :=
  ⟨countOcc tag content + 1,
    find_texsnips_total htag hlb hrb hP (countOcc tag content) content (Nat.le_refl _)⟩

-- ------------------------------------------------------------------
-- Image model and trim_tex (lines 9-17)

/-- A raster image: size, number of bands (channels), and per-pixel band
values (`px x y`, `x` across the width). -/
structure Img where
  width : Nat
  height : Nat
  bands : Nat
  px : Nat → Nat → List Nat

/-- `Image.new(mode, size, color)`: a constant image. -/
def imgNew (w h bands : Nat) (color : List Nat) : Img :=
  ⟨w, h, bands, fun _ _ => color⟩

/-- `ImageChops.difference`: per-pixel, per-band absolute difference. -/
def chops_difference (a b : Img) : Img :=
  ⟨a.width, a.height, a.bands,
    fun x y => (a.px x y).zipWith (fun u v => max u v - min u v) (b.px x y)⟩

/-- `ImageChops.add(image1, image2, scale, offset)`: per-band
`(image1 + image2) / scale + offset`, clipped to `[0, 255]`. -/
def chops_add (a b : Img) (scale : Nat) (offset : Int) : Img :=
  ⟨a.width, a.height, a.bands,
    fun x y => (a.px x y).zipWith
      (fun (u v : Nat) => (min 255 (max 0 (((u : Int) + (v : Int)) / (scale : Int) + offset))).toNat)
      (b.px x y)⟩

/-- A pixel counts as non-zero when any band is non-zero. -/
def pxNonzero (im : Img) (x y : Nat) : Bool := (im.px x y).any (fun v => v != 0)

def colNonzero (im : Img) (x : Nat) : Bool :=
  (List.range im.height).any (fun y => pxNonzero im x y)

def rowNonzero (im : Img) (y : Nat) : Bool :=
  (List.range im.width).any (fun x => pxNonzero im x y)

/-- Smallest `k < n` with `p k`. -/
def firstBelow (p : Nat → Bool) : Nat → Option Nat
  | 0 => none
  | n + 1 =>
    match firstBelow p n with
    | some k => some k
    | none => if p n then some n else none

/-- Largest `k < n` with `p k`. -/
def lastBelow (p : Nat → Bool) : Nat → Option Nat
  | 0 => none
  | n + 1 => if p n then some n else lastBelow p n

/-- `im.getbbox()`: the bounding box `(left, upper, right, lower)` of the
non-zero regions (right and lower exclusive); `none` when every pixel is
zero. -/
def getbbox (im : Img) : Option (Nat × Nat × Nat × Nat) :=
  match firstBelow (colNonzero im) im.width, firstBelow (rowNonzero im) im.height,
      lastBelow (colNonzero im) im.width, lastBelow (rowNonzero im) im.height with
  | some l, some t, some r, some b => some (l, t, r + 1, b + 1)
  | _, _, _, _ => none

/-- `im.crop((l, t, r, b))`: an image of size `(r - l, b - t)` whose pixel
`(x, y)` is the source pixel `(l + x, t + y)`, zero-filled where the box
extends outside the source. -/
def crop (im : Img) (l t r b : Int) : Img :=
  ⟨(r - l).toNat, (b - t).toNat, im.bands, fun x y =>
    if 0 ≤ l + x ∧ l + x < im.width ∧ 0 ≤ t + y ∧ t + y < im.height then
      im.px (l + x).toNat (t + y).toNat
    else List.replicate im.bands 0⟩

/-- The biased difference image `trim_tex` computes before taking the
bounding box: `diff = ImageChops.difference(im, bg)` with `bg` the constant
image in the colour of the top-left pixel, then
`diff = ImageChops.add(diff, diff, 1, -50)`. -/
def trimDiff (im : Img) : Img :=
  chops_add (chops_difference im (imgNew im.width im.height im.bands (im.px 0 0)))
    (chops_difference im (imgNew im.width im.height im.bands (im.px 0 0))) 1 (-50)

/-- `trim_tex` (lines 9-17).  When `diff.getbbox()` returns `None` (all-zero
biased difference) the Python code evaluates `bbox[0]` on `None` and raises a
`TypeError`, modelled as `none`.  The `if bbox:` guard is only reached once
`bbox` has been rebuilt as a (nonempty) list, so it is then always true and
the crop always happens. -/
def trim_tex (im : Img) : Option Img :=
  match getbbox (trimDiff im) with
  | none => none
  | some (l, t, r, b) =>
    some (crop im ((l : Int) - 50) ((t : Int) - 50) ((r : Int) + 50) ((b : Int) + 50))

theorem firstBelow_none_iff (p : Nat → Bool) :
    ∀ n, firstBelow p n = none ↔ ∀ j, j < n → p j = false := by
  intro n
  induction n with
  | zero => simp [firstBelow]
  | succ n ih =>
    constructor
    · intro h j hj
      unfold firstBelow at h
      cases hfb : firstBelow p n with
      | some k => rw [hfb] at h; cases h
      | none =>
        rw [hfb] at h
        by_cases hp : p n
        · rw [if_pos hp] at h; cases h
        · rcases Nat.lt_succ_iff_lt_or_eq.1 hj with h' | rfl
          · exact ih.1 hfb j h'
          · simpa using hp
    · intro h
      unfold firstBelow
      rw [ih.2 (fun j hj => h j (by omega)), h n (Nat.lt_succ_self n)]
      rfl

theorem firstBelow_some (p : Nat → Bool) :
    ∀ n k, firstBelow p n = some k →
      k < n ∧ p k = true ∧ ∀ j, j < k → p j = false := by
  intro n
  induction n with
  | zero => intro k h; cases h
  | succ n ih =>
    intro k h
    unfold firstBelow at h
    cases hfb : firstBelow p n with
    | some k' =>
      rw [hfb] at h
      injection h with h
      obtain ⟨h1, h2, h3⟩ := ih k' hfb
      subst h
      exact ⟨by omega, h2, h3⟩
    | none =>
      rw [hfb] at h
      by_cases hp : p n
      · rw [if_pos hp] at h
        injection h with h
        subst h
        exact ⟨Nat.lt_succ_self n, hp, (firstBelow_none_iff p n).1 hfb⟩
      · rw [if_neg hp] at h
        cases h

theorem lastBelow_none_iff (p : Nat → Bool) :
    ∀ n, lastBelow p n = none ↔ ∀ j, j < n → p j = false := by
  intro n
  induction n with
  | zero => simp [lastBelow]
  | succ n ih =>
    constructor
    · intro h j hj
      unfold lastBelow at h
      by_cases hp : p n
      · rw [if_pos hp] at h; cases h
      · rw [if_neg hp] at h
        rcases Nat.lt_succ_iff_lt_or_eq.1 hj with h' | rfl
        · exact ih.1 h j h'
        · simpa using hp
    · intro h
      unfold lastBelow
      rw [h n (Nat.lt_succ_self n)]
      exact ih.2 (fun j hj => h j (by omega))

theorem lastBelow_some (p : Nat → Bool) :
    ∀ n k, lastBelow p n = some k →
      k < n ∧ p k = true ∧ ∀ j, k < j → j < n → p j = false := by
  intro n
  induction n with
  | zero => intro k h; cases h
  | succ n ih =>
    intro k h
    unfold lastBelow at h
    by_cases hp : p n
    · rw [if_pos hp] at h
      injection h with h
      subst h
      exact ⟨Nat.lt_succ_self n, hp, fun j h1 h2 => by omega⟩
    · rw [if_neg hp] at h
      obtain ⟨h1, h2, h3⟩ := ih k h
      refine ⟨by omega, h2, ?_⟩
      intro j hj1 hj2
      rcases Nat.lt_succ_iff_lt_or_eq.1 hj2 with h' | rfl
      · exact h3 j hj1 h'
      · simpa using hp

theorem isSome_of_sat {p : Nat → Bool} {n j : Nat} (hj : j < n) (hp : p j = true) :
    (∃ k, firstBelow p n = some k) ∧ (∃ k, lastBelow p n = some k) := by
  constructor
  · cases hfb : firstBelow p n with
    | none =>
      rw [firstBelow_none_iff] at hfb
      rw [hfb j hj] at hp
      cases hp
    | some k => exact ⟨k, rfl⟩
  · cases hfb : lastBelow p n with
    | none =>
      rw [lastBelow_none_iff] at hfb
      rw [hfb j hj] at hp
      cases hp
    | some k => exact ⟨k, rfl⟩

theorem colNonzero_iff {im : Img} {x : Nat} :
    colNonzero im x = true ↔ ∃ y, y < im.height ∧ pxNonzero im x y = true := by
  unfold colNonzero
  rw [List.any_eq_true]
  constructor
  · rintro ⟨y, hy, hp⟩
    exact ⟨y, List.mem_range.1 hy, hp⟩
  · rintro ⟨y, hy, hp⟩
    exact ⟨y, List.mem_range.2 hy, hp⟩

theorem rowNonzero_iff {im : Img} {y : Nat} :
    rowNonzero im y = true ↔ ∃ x, x < im.width ∧ pxNonzero im x y = true := by
  unfold rowNonzero
  rw [List.any_eq_true]
  constructor
  · rintro ⟨x, hx, hp⟩
    exact ⟨x, List.mem_range.1 hx, hp⟩
  · rintro ⟨x, hx, hp⟩
    exact ⟨x, List.mem_range.2 hx, hp⟩

/-- The per-pixel value of the biased difference image: absolute difference
from the top-left pixel, doubled, offset by `-50`, clamped to `[0, 255]`. -/
theorem zipWith_fuse (f : Nat → Nat → Nat) (g : Nat → Nat) (h : Nat → Nat → Nat)
    (hfg : ∀ u v, g (f u v) = h u v) :
    ∀ (a b : List Nat), (List.zipWith f a b).map g = List.zipWith h a b := by
  intro a
  induction a with
  | nil => intro b; rfl
  | cons u a ih =>
    intro b
    cases b with
    | nil => rfl
    | cons v b => simp [List.zipWith_cons_cons, hfg, ih]

/-- The per-pixel value of the biased difference image: absolute difference
from the top-left pixel, doubled, offset by `-50`, clamped to `[0, 255]`. -/
theorem trimDiff_px (im : Img) (x y : Nat) :
    (trimDiff im).px x y = (im.px x y).zipWith
      (fun u v => (min 255 (max 0 (2 * ((max u v - min u v : Nat) : Int) - 50))).toNat)
      (im.px 0 0) := by
  unfold trimDiff chops_add chops_difference imgNew
  dsimp only
  rw [List.zipWith_same]
  apply zipWith_fuse
  intro u v
  congr 1
  have h1 : (((max u v - min u v : Nat) : Int) + ((max u v - min u v : Nat) : Int))
      / ((1 : Nat) : Int) = 2 * ((max u v - min u v : Nat) : Int) := by
    push_cast
    omega
  rw [h1]
  omega

theorem trimDiff_uniform_zero {im : Img}
    (hu : ∀ x, x < im.width → ∀ y, y < im.height → im.px x y = im.px 0 0)
    {x y : Nat} (hx : x < im.width) (hy : y < im.height) :
    pxNonzero (trimDiff im) x y = false := by
  unfold pxNonzero
  rw [trimDiff_px, hu x hx y hy, List.zipWith_same, List.any_map]
  rw [List.any_eq_false]
  intro a _
  simp [Function.comp]

theorem trim_tex_uniform_none {im : Img}
    (hu : ∀ x, x < im.width → ∀ y, y < im.height → im.px x y = im.px 0 0) :
    trim_tex im = none := by
  have hcol : firstBelow (colNonzero (trimDiff im)) (trimDiff im).width = none := by
    rw [firstBelow_none_iff]
    intro j hj
    cases hc : colNonzero (trimDiff im) j with
    | false => rfl
    | true =>
      exfalso
      obtain ⟨y, hy, hp⟩ := colNonzero_iff.1 hc
      rw [trimDiff_uniform_zero hu hj hy] at hp
      cases hp
  have hbbox : getbbox (trimDiff im) = none := by
    unfold getbbox
    rw [hcol]
  unfold trim_tex
  rw [hbbox]

-- ------------------------------------------------------------------
-- Wrappers with decidable hypotheses

theorem find_texsnips_spec' {tag : List Char} {DP : List (Nat × Nat)}
    {content : List Char} {topt : Option Nat} {fuel : Nat}
    (htag : tag ≠ []) (hlb : '[' ∉ tag) (hrb : ']' ∉ tag)
    (hP : ∀ j, j < 12 → ¬ occursAt tag tex_replace j)
    (hfuel : DP.length < fuel)
    (hchar : ∀ i, i < content.length →
      (occursAt tag content i ↔ i ∈ pairPositions DP ++ topt.toList))
    (hbound : ∀ d ∈ pairPositions DP ++ topt.toList, d < content.length)
    (hgap : Gapped tag.length (pairPositions DP ++ topt.toList)) :
    find_texsnips tag fuel content
      = some (expSnips tag.length content DP, expNew tag.length content DP) := by
  have hn := List.length_pos.2 htag
  have hP' : ∀ j, ¬ occursAt tag tex_replace j := by
    intro j hc
    by_cases h12 : j < 12
    · exact hP j h12 hc
    · have := occursAt.length_le htag hc
      rw [tex_replace_length] at this
      omega
  have hchar' : ∀ i, occursAt tag content i ↔ i ∈ pairPositions DP ++ topt.toList := by
    intro i
    by_cases hi : i < content.length
    · exact hchar i hi
    · constructor
      · intro hc
        have := occursAt.length_le htag hc
        omega
      · intro hm
        have := hbound i hm
        omega
  exact find_texsnips_spec htag hlb hrb hP' DP.length DP content topt fuel rfl hfuel
    hchar' hgap

theorem insert_images_spec (bad : List Nat) (snips segs : List (List Char))
    (hlen : segs.length = snips.length + 1)
    (hfree : ∀ i, i < (interR segs (reps bad 0 snips)).length →
      ¬ occursAt tex_replace (interR segs (reps bad 0 snips)) i) :
    insert_images_in_md snips bad (interP segs) = interR segs (reps bad 0 snips) := by
  have hfree' : ∀ i, ¬ occursAt tex_replace (interR segs (reps bad 0 snips)) i := by
    intro i
    by_cases hi : i < (interR segs (reps bad 0 snips)).length
    · exact hfree i hi
    · exact occursAt_big_of_lt tex_replace_ne (by omega)
  have h := insertLoop_spec bad snips 0 segs [] hlen (by simpa using hfree')
  simpa [insert_images_in_md] using h

theorem reps_nil_eq : ∀ (snips : List (List Char)) (i0 : Nat),
    reps [] i0 snips = (List.range' i0 snips.length).map imageLink := by
  intro snips
  induction snips with
  | nil => intro i0; rfl
  | cons t ts ih =>
    intro i0
    show (if i0 ∈ ([] : List Nat) then t else imageLink i0) :: reps [] (i0 + 1) ts = _
    rw [if_neg (List.not_mem_nil i0), List.length_cons, List.range'_succ, List.map_cons,
      ih (i0 + 1)]

-- ------------------------------------------------------------------
-- Path helpers

theorem takeWhile_append_stop {p : Char → Bool} :
    ∀ (stem : List Char) (d : Char) (ext : List Char),
      (∀ c ∈ stem, p c = true) → p d = false →
      (stem ++ d :: ext).takeWhile p = stem := by
  intro stem
  induction stem with
  | nil =>
    intro d ext _ hd
    simp [List.takeWhile_cons, hd]
  | cons c cs ih =>
    intro d ext hall hd
    have hc : p c = true := hall c (List.mem_cons_self c cs)
    simp only [List.cons_append, List.takeWhile_cons, hc, if_true]
    rw [ih d ext (fun x hx => hall x (List.mem_cons_of_mem c hx)) hd]

theorem digitChar_ne_dot : ∀ k, k < 10 → digitChar k ≠ '.' := by decide

theorem natCharsAux_no_dot : ∀ fuel n, '.' ∉ natCharsAux fuel n := by
  intro fuel
  induction fuel with
  | zero => intro n; simp [natCharsAux]
  | succ fuel ih =>
    intro n
    unfold natCharsAux
    by_cases h : n < 10
    · rw [if_pos h]
      intro hmem
      exact digitChar_ne_dot n h (List.mem_singleton.1 hmem).symm
    · rw [if_neg h]
      intro hmem
      rcases List.mem_append.1 hmem with h1 | h2
      · exact ih (n / 10) h1
      · exact digitChar_ne_dot (n % 10) (Nat.mod_lt n (by omega))
          (List.mem_singleton.1 h2).symm

theorem natChars_no_dot (n : Nat) : '.' ∉ natChars n := natCharsAux_no_dot (n + 1) n

theorem beforeFirstDot_append {stem : List Char} (ext : List Char)
    (h : '.' ∉ stem) : beforeFirstDot (stem ++ '.' :: ext) = stem := by
  unfold beforeFirstDot
  apply takeWhile_append_stop
  · intro c hc
    simp only [decide_eq_true_eq]
    intro hdot
    subst hdot
    exact h hc
  · simp

-- ------------------------------------------------------------------
-- Claims C7 and C8

theorem no_dot_stem (i : Nat) : '.' ∉ str "fig/tex_snip_" ++ natChars i := by
  intro hmem
  rcases List.mem_append.1 hmem with h1 | h2
  · exact absurd h1 (by decide)
  · exact natChars_no_dot i h2

/-- C7 (amended): `save_new_md` writes to the path obtained by cutting the
original path at its FIRST dot and appending the fixed suffix `_medium.md`
(so the original extension is always replaced by `.md`, not kept); the final
image for ordinal `i` is `fig/tex_snip_<i>.png` in the working folder. -/
theorem C7_paths_amended :
    (∀ stem ext : List Char, '.' ∉ stem →
      save_new_md_path (stem ++ '.' :: ext) = stem ++ str "_medium.md") ∧
    (∀ i : Nat, imPath i = str "fig/tex_snip_" ++ natChars i ++ str ".png") := by
  constructor
  · intro stem ext h
    unfold save_new_md_path
    rw [beforeFirstDot_append ext h]
  · intro i
    have h1 : texPath i = (str "fig/tex_snip_" ++ natChars i) ++ '.' :: str "tex" := by
      unfold texPath
      rw [List.append_assoc]
      rfl
    have h2 : pdfPath i = (str "fig/tex_snip_" ++ natChars i) ++ '.' :: str "pdf" := by
      unfold pdfPath
      rw [h1, beforeFirstDot_append _ (no_dot_stem i)]
      rfl
    unfold imPath
    rw [h2, beforeFirstDot_append _ (no_dot_stem i), List.append_assoc]

/-- C7 counterexample: for the input path `notes.markdown` the code writes to
`notes_medium.md`, not to `<stem>_medium.<original ext>` = `notes_medium.markdown`
as the claim states. -/
theorem C7_paths_cex :
    save_new_md_path (str "notes.markdown") = str "notes_medium.md" ∧
    save_new_md_path (str "notes.markdown") ≠ str "notes_medium.markdown" := by
  exact ⟨rfl, by decide⟩

theorem C7_paths_witness :
    ('.' ∉ str "notes") ∧
    save_new_md_path (str "notes" ++ '.' :: str "md") = str "notes" ++ str "_medium.md" ∧
    imPath 3 = str "fig/tex_snip_" ++ natChars 3 ++ str ".png" := by
  exact ⟨by decide, C7_paths_amended.1 (str "notes") (str "md") (by decide),
    C7_paths_amended.2 3⟩

/-- C8 (amended): after `clean_figfolder` the working folder contains exactly
the files whose extension (Python `f.split('.')[-1].lower()`) is `png`; every
other file is deleted, including images in other formats such as `.jpg`. -/
theorem C8_cleanup_amended (files : List (List Char)) :
    clean_figfolder files
      = files.filter (fun f => (afterLastDot f).map Char.toLower == str "png") := by
  unfold clean_figfolder
  apply List.filter_congr
  intro f hf
  cases hq : ((afterLastDot f).map Char.toLower == str "png") with
  | true =>
    have hnot : f ∉ files.filter
        (fun f => !((afterLastDot f).map Char.toLower == str "png")) := by
      intro hmem
      rw [List.mem_filter, hq] at hmem
      simp at hmem
    have hcf : (files.filter
        (fun f => !((afterLastDot f).map Char.toLower == str "png"))).contains f
        = false := by
      rw [← Bool.not_eq_true]
      intro hcon
      exact hnot (List.elem_iff.1 hcon)
    rw [hcf]
    rfl
  | false =>
    have hmem : f ∈ files.filter
        (fun f => !((afterLastDot f).map Char.toLower == str "png")) :=
      List.mem_filter.2 ⟨hf, by rw [hq]; rfl⟩
    have hcf : (files.filter
        (fun f => !((afterLastDot f).map Char.toLower == str "png"))).contains f
        = true := List.elem_iff.2 hmem
    rw [hcf]
    rfl

/-- C8 counterexample: `fig.jpg` is an image file, yet the sweep deletes it —
the folder after cleaning does not keep every image file, only `.png` ones. -/
theorem C8_cleanup_cex :
    clean_figfolder [str "fig.jpg"] = [] ∧
    clean_figfolder [str "a.PNG", str "b.tex", str "c.png", str "d.jpg"]
      = [str "a.PNG", str "c.png"] := by
  exact ⟨rfl, rfl⟩

-- ------------------------------------------------------------------
-- Claims C4 and C5

/-- C4: on a fully uniform image (every pixel equal to the top-left pixel)
the biased difference is all-zero, `diff.getbbox()` returns `None`, and the
very next line `bbox = [bbox[0] - 50, ...]` subscripts `None` — the code
raises a `TypeError` (modelled as `none`) instead of skipping the crop as the
spec intends with its (misplaced, unreachable) `if bbox:` guard. -/
theorem C4_uniform_crash (im : Img)
    (hu : ∀ x, x < im.width → ∀ y, y < im.height → im.px x y = im.px 0 0) :
    trim_tex im = none :=
  trim_tex_uniform_none hu

def exImgUniform : Img := ⟨2, 2, 1, fun _ _ => [7]⟩

theorem C4_uniform_crash_witness :
    (∀ x, x < exImgUniform.width → ∀ y, y < exImgUniform.height →
      exImgUniform.px x y = exImgUniform.px 0 0) ∧
    trim_tex exImgUniform = none := by
  refine ⟨by decide, C4_uniform_crash exImgUniform (by decide)⟩

/-- A faint non-uniform image: differences from the top-left pixel reach 30,
below the claim's `d - 50` threshold but above the code's `2d - 50` one. -/
def exImgFaint : Img := ⟨2, 1, 1, fun x _ => if x = 0 then [0] else [30]⟩

/-- Modelled from the spec's words, for comparison only: "a thresholding bias
equal to subtracting a constant (50) from that difference floored at zero" —
per band `max (d - 50) 0` where `d` is the absolute difference from the
top-left pixel. -/
def specBiasedDiff (im : Img) : Img :=
  ⟨im.width, im.height, im.bands,
    fun x y => (im.px x y).zipWith (fun u v => (max u v - min u v) - 50) (im.px 0 0)⟩

/-- C5 counterexample: a non-uniform image whose differences are all at most
30.  Under the claim's bias `max (d - 50) 0` every pixel is zero, so no
bounding box exists; but the code's bias is `2d - 50`, the box exists, and
`trim_tex` crops.  So the claim's description of the bias (and hence of the
crop box) is wrong for this non-uniform input. -/
theorem C5_crop_cex :
    (¬ ∀ x, x < exImgFaint.width → ∀ y, y < exImgFaint.height →
      exImgFaint.px x y = exImgFaint.px 0 0) ∧
    getbbox (specBiasedDiff exImgFaint) = none ∧
    getbbox (trimDiff exImgFaint) = some (1, 0, 2, 1) ∧
    (trim_tex exImgFaint).isSome = true := by
  refine ⟨by decide, by decide, by decide, by decide⟩

/-- C5 (amended): for every image on which the biased difference
`min 255 (max 0 (2*d - 50))` (with `d` the per-band absolute difference from
the top-left pixel — the code doubles the difference before subtracting 50)
is non-zero somewhere, `trim_tex` crops to the bounding box of the non-zero
biased difference expanded by exactly 50 pixels on each of the four sides,
without clipping (the box may extend outside the image; `crop` zero-fills).
On an image whose biased difference vanishes everywhere it does not crop
(it fails, see C4). -/
theorem C5_crop_amended (im : Img)
    (hex : ∃ x, x < im.width ∧ ∃ y, y < im.height ∧
      pxNonzero (trimDiff im) x y = true) :
    ∃ l t r b : Nat,
      trim_tex im = some (crop im ((l : Int) - 50) ((t : Int) - 50)
        ((r : Int) + 50) ((b : Int) + 50)) ∧
      (∀ x y, x < im.width → y < im.height →
        pxNonzero (trimDiff im) x y = true → l ≤ x ∧ x < r ∧ t ≤ y ∧ y < b) ∧
      (∃ y, y < im.height ∧ pxNonzero (trimDiff im) l y = true) ∧
      (∃ y, y < im.height ∧ pxNonzero (trimDiff im) (r - 1) y = true) ∧
      (∃ x, x < im.width ∧ pxNonzero (trimDiff im) x t = true) ∧
      (∃ x, x < im.width ∧ pxNonzero (trimDiff im) x (b - 1) = true) ∧
      (∀ x y, (trimDiff im).px x y = (im.px x y).zipWith
        (fun u v => (min 255 (max 0 (2 * ((max u v - min u v : Nat) : Int) - 50))).toNat)
        (im.px 0 0)) := by
  obtain ⟨x0, hx0, y0, hy0, hpx⟩ := hex
  have hcol0 : colNonzero (trimDiff im) x0 = true := colNonzero_iff.2 ⟨y0, hy0, hpx⟩
  have hrow0 : rowNonzero (trimDiff im) y0 = true := rowNonzero_iff.2 ⟨x0, hx0, hpx⟩
  obtain ⟨⟨l, hfl⟩, ⟨r', hlr⟩⟩ :=
    isSome_of_sat (p := colNonzero (trimDiff im)) (n := (trimDiff im).width) hx0 hcol0
  obtain ⟨⟨t, hft⟩, ⟨b', hlb2⟩⟩ :=
    isSome_of_sat (p := rowNonzero (trimDiff im)) (n := (trimDiff im).height) hy0 hrow0
  obtain ⟨hl1, hl2, hl3⟩ := firstBelow_some _ _ _ hfl
  obtain ⟨hr1, hr2, hr3⟩ := lastBelow_some _ _ _ hlr
  obtain ⟨ht1, ht2, ht3⟩ := firstBelow_some _ _ _ hft
  obtain ⟨hb1, hb2, hb3⟩ := lastBelow_some _ _ _ hlb2
  have hbbox : getbbox (trimDiff im) = some (l, t, r' + 1, b' + 1) := by
    unfold getbbox
    rw [hfl, hft, hlr, hlb2]
  refine ⟨l, t, r' + 1, b' + 1, ?_, ?_, ?_, ?_, ?_, ?_, ?_⟩
  · unfold trim_tex
    rw [hbbox]
  · intro x y hx hy hp
    have hcolx : colNonzero (trimDiff im) x = true := colNonzero_iff.2 ⟨y, hy, hp⟩
    have hrowy : rowNonzero (trimDiff im) y = true := rowNonzero_iff.2 ⟨x, hx, hp⟩
    refine ⟨?_, ?_, ?_, ?_⟩
    · by_contra hlt
      rw [hl3 x (by omega)] at hcolx
      cases hcolx
    · by_contra hge
      rw [hr3 x (by omega) hx] at hcolx
      cases hcolx
    · by_contra hlt
      rw [ht3 y (by omega)] at hrowy
      cases hrowy
    · by_contra hge
      rw [hb3 y (by omega) hy] at hrowy
      cases hrowy
  · exact colNonzero_iff.1 hl2
  · have : r' + 1 - 1 = r' := by omega
    rw [this]
    exact colNonzero_iff.1 hr2
  · exact rowNonzero_iff.1 ht2
  · have : b' + 1 - 1 = b' := by omega
    rw [this]
    exact rowNonzero_iff.1 hb2
  · intro x y
    exact trimDiff_px im x y

def exImgBox : Img := ⟨3, 1, 1, fun x _ => if x = 1 then [40] else [0]⟩

theorem C5_crop_amended_witness :
    (∃ x, x < exImgBox.width ∧ ∃ y, y < exImgBox.height ∧
      pxNonzero (trimDiff exImgBox) x y = true) ∧
    (∃ l t r b : Nat,
      trim_tex exImgBox = some (crop exImgBox ((l : Int) - 50) ((t : Int) - 50)
        ((r : Int) + 50) ((b : Int) + 50)) ∧
      (∀ x y, x < exImgBox.width → y < exImgBox.height →
        pxNonzero (trimDiff exImgBox) x y = true → l ≤ x ∧ x < r ∧ t ≤ y ∧ y < b) ∧
      (∃ y, y < exImgBox.height ∧ pxNonzero (trimDiff exImgBox) l y = true) ∧
      (∃ y, y < exImgBox.height ∧ pxNonzero (trimDiff exImgBox) (r - 1) y = true) ∧
      (∃ x, x < exImgBox.width ∧ pxNonzero (trimDiff exImgBox) x t = true) ∧
      (∃ x, x < exImgBox.width ∧ pxNonzero (trimDiff exImgBox) x (b - 1) = true) ∧
      (∀ x y, (trimDiff exImgBox).px x y = (exImgBox.px x y).zipWith
        (fun u v => (min 255 (max 0 (2 * ((max u v - min u v : Nat) : Int) - 50))).toNat)
        (exImgBox.px 0 0))) := by
  refine ⟨by decide, C5_crop_amended exImgBox (by decide)⟩

-- ------------------------------------------------------------------
-- Claims C2, C6, C9

/-- C2 (amended): for a document whose tag occurrences are exactly `2k`
well-paired positions (in order, non-overlapping), where the tag contains
neither `'['` nor `']'` and does not occur in the placeholder (tags
interacting with the inserted placeholder can create new occurrences, see the
counterexample), and whose text outside the pairs is placeholder-free,
`find_texsnips` extracts exactly `N/2 = k` snippets — the text between the
tags of each pair, in first-to-last order — and the resulting `new_content`
contains exactly `N/2` occurrences of `[LATEX_SNIP]`. -/
theorem C2_even_scan_amended {tag content : List Char} {DP : List (Nat × Nat)}
    {fuel : Nat} (htag : tag ≠ []) (hlb : '[' ∉ tag) (hrb : ']' ∉ tag)
    (hP : ∀ j, j < 12 → ¬ occursAt tag tex_replace j)
    (hfuel : DP.length < fuel)
    (hchar : ∀ i, i < content.length →
      (occursAt tag content i ↔ i ∈ pairPositions DP))
    (hbound : ∀ d ∈ pairPositions DP, d < content.length)
    (hgap : Gapped tag.length (pairPositions DP))
    (hseg : segsPFree tag.length content DP = true) :
    countOcc tag content = 2 * DP.length ∧
    find_texsnips tag fuel content
      = some (expSnips tag.length content DP, expNew tag.length content DP) ∧
    (expSnips tag.length content DP).length = countOcc tag content / 2 ∧
    countOcc tex_replace (expNew tag.length content DP)
      = countOcc tag content / 2 := by
  have hn := List.length_pos.2 htag
  have hchar' : ∀ i, occursAt tag content i ↔ i ∈ pairPositions DP := by
    intro i
    by_cases hi : i < content.length
    · exact hchar i hi
    · constructor
      · intro hc
        have := occursAt.length_le htag hc
        omega
      · intro hm
        have := hbound i hm
        omega
  have h1 : countOcc tag content = 2 * DP.length := by
    rw [countOcc_eq_length htag hchar' (Gapped_nodup hn hgap), pairPositions_length]
  have h2 := @find_texsnips_spec' tag DP content none fuel htag hlb hrb hP hfuel
    (by intro i hi; simpa using hchar i hi)
    (by intro d hd; exact hbound d (by simpa using hd))
    (by simpa using hgap)
  have h3 := expSnips_length tag.length DP.length DP content rfl
  have h4 := countOcc_expNew tag.length DP.length DP content rfl hseg
  refine ⟨h1, h2, ?_, ?_⟩
  · rw [h1, h3]
    omega
  · rw [h1, h4]
    omega

/-- C2 counterexample: for the tag `]a[` (not a substring of the placeholder)
the document `]a]a[]a[a[` contains exactly `N = 2` tag occurrences, yet the
scan extracts 2 snippets, not `N/2 = 1`: the placeholder inserted for the
first pair combines with the surrounding text into new tag occurrences. -/
theorem C2_even_scan_cex :
    countOcc (str "]a[") (str "]a]a[]a[a[") = 2 ∧
    find_texsnips (str "]a[") 3 (str "]a]a[]a[a[")
      = some ([str "", str "LATEX_SNIP"], str "[LATEX_SNIP]") ∧
    ([str "", str "LATEX_SNIP"].length ≠ 2 / 2) := by
  refine ⟨by decide, rfl, by decide⟩

theorem C2_even_scan_witness :
    countOcc (str "@@") (str "foo@@X@@bar") = 2 * [((3 : Nat), (6 : Nat))].length ∧
    find_texsnips (str "@@") 2 (str "foo@@X@@bar")
      = some (expSnips 2 (str "foo@@X@@bar") [(3, 6)],
          expNew 2 (str "foo@@X@@bar") [(3, 6)]) ∧
    (expSnips 2 (str "foo@@X@@bar") [(3, 6)]).length
      = countOcc (str "@@") (str "foo@@X@@bar") / 2 ∧
    countOcc tex_replace (expNew 2 (str "foo@@X@@bar") [(3, 6)])
      = countOcc (str "@@") (str "foo@@X@@bar") / 2 := by
  exact C2_even_scan_amended (by decide) (by decide) (by decide) (by decide)
    (by decide) (by decide) (by decide) (by decide)
    (by simp only [segsPFree_cons, List.map_nil, segsPFree_nil]; decide)

/-- C6 (amended): for a document whose tag occurrences are exactly `2k + 1`
positions (k well-paired plus one unmatched trailing occurrence, the tag not
interacting with the placeholder), `find_texsnips` yields exactly
`floor(count/2) = k` snippets — not one fewer.  The unterminated final tag is
silently ignored: it stays in `new_content` (see `expNew`), and the text after
it is not captured as a snippet (the snippets are exactly the texts between
the `k` pairs). -/
theorem C6_odd_scan_amended {tag content : List Char} {DP : List (Nat × Nat)}
    {u fuel : Nat} (htag : tag ≠ []) (hlb : '[' ∉ tag) (hrb : ']' ∉ tag)
    (hP : ∀ j, j < 12 → ¬ occursAt tag tex_replace j)
    (hfuel : DP.length < fuel)
    (hchar : ∀ i, i < content.length →
      (occursAt tag content i ↔ i ∈ pairPositions DP ++ [u]))
    (hbound : ∀ d ∈ pairPositions DP ++ [u], d < content.length)
    (hgap : Gapped tag.length (pairPositions DP ++ [u])) :
    countOcc tag content = 2 * DP.length + 1 ∧
    find_texsnips tag fuel content
      = some (expSnips tag.length content DP, expNew tag.length content DP) ∧
    (expSnips tag.length content DP).length = countOcc tag content / 2 := by
  have hn := List.length_pos.2 htag
  have hchar' : ∀ i, occursAt tag content i ↔ i ∈ pairPositions DP ++ [u] := by
    intro i
    by_cases hi : i < content.length
    · exact hchar i hi
    · constructor
      · intro hc
        have := occursAt.length_le htag hc
        omega
      · intro hm
        have := hbound i hm
        omega
  have h1 : countOcc tag content = 2 * DP.length + 1 := by
    rw [countOcc_eq_length htag hchar' (Gapped_nodup hn hgap), List.length_append,
      pairPositions_length]
    rfl
  have h2 := @find_texsnips_spec' tag DP content (some u) fuel htag hlb hrb hP hfuel
    (by intro i hi; simpa using hchar i hi)
    (by intro d hd; exact hbound d (by simpa using hd))
    (by simpa using hgap)
  have h3 := expSnips_length tag.length DP.length DP content rfl
  refine ⟨h1, h2, ?_⟩
  rw [h1, h3]
  omega

/-- C6 counterexample: `a@@b@@c@@d` contains 3 occurrences of the tag `@@`;
the scan extracts 1 snippet = `floor(3/2)`, not `floor(3/2) - 1 = 0` as the
claim computes. -/
theorem C6_odd_scan_cex :
    countOcc (str "@@") (str "a@@b@@c@@d") = 3 ∧
    find_texsnips (str "@@") 3 (str "a@@b@@c@@d")
      = some ([str "b"], str "a[LATEX_SNIP]c@@d") ∧
    ([str "b"].length ≠ 3 / 2 - 1) := by
  refine ⟨by decide, rfl, by decide⟩

theorem C6_odd_scan_witness :
    countOcc (str "@@") (str "a@@b@@c@@d") = 2 * [((1 : Nat), (4 : Nat))].length + 1 ∧
    find_texsnips (str "@@") 2 (str "a@@b@@c@@d")
      = some (expSnips 2 (str "a@@b@@c@@d") [(1, 4)],
          expNew 2 (str "a@@b@@c@@d") [(1, 4)]) ∧
    (expSnips 2 (str "a@@b@@c@@d") [(1, 4)]).length
      = countOcc (str "@@") (str "a@@b@@c@@d") / 2 := by
  exact C6_odd_scan_amended (u := 7) (by decide) (by decide) (by decide) (by decide)
    (by decide) (by decide) (by decide) (by decide)

/-- C9 (amended): for every non-empty tag that contains neither `'['` nor
`']'` and does not occur in the placeholder `[LATEX_SNIP]`, each iteration of
the `find_texsnips` loop strictly decreases the number of tag occurrences (by
at least two: two occurrences are consumed and the inserted placeholder
creates none), so the loop terminates on every finite document.  (For a tag
that is merely "not a substring of the placeholder" the claimed strict
decrease fails: a tag containing brackets can recombine with the inserted
placeholder, see the counterexample.) -/
theorem C9_termination_amended {tag : List Char} (htag : tag ≠ [])
    (hlb : '[' ∉ tag) (hrb : ']' ∉ tag)
    (hP : ∀ j, j < 12 → ¬ occursAt tag tex_replace j) :
    (∀ content snip content', scanStep tag content = some (snip, content') →
      countOcc tag content' + 2 ≤ countOcc tag content) ∧
    (∀ content, ∃ fuel, (find_texsnips tag fuel content).isSome = true) := by
  have hP' : ∀ j, ¬ occursAt tag tex_replace j := by
    intro j hc
    by_cases h12 : j < 12
    · exact hP j h12 hc
    · have := occursAt.length_le htag hc
      rw [tex_replace_length] at this
      have := List.length_pos.2 htag
      omega
  exact ⟨scanStep_count_decrease htag hlb hrb hP',
    fun content => find_texsnips_terminates htag hlb hrb hP' content⟩

/-- C9 counterexample: the tag `]a[` is not a substring of the placeholder,
yet one loop iteration on `]a]a[]a[a[` does not strictly decrease the tag
count: it stays 2, because the inserted placeholder recombines with adjacent
text into two new occurrences. -/
theorem C9_termination_cex :
    (∀ j, j < 12 → ¬ occursAt (str "]a[") tex_replace j) ∧
    scanStep (str "]a[") (str "]a]a[]a[a[") = some (str "", str "]a[LATEX_SNIP]a[") ∧
    countOcc (str "]a[") (str "]a]a[]a[a[") = 2 ∧
    countOcc (str "]a[") (str "]a[LATEX_SNIP]a[") = 2 := by
  refine ⟨by decide, rfl, by decide, by decide⟩

theorem C9_termination_witness :
    ((str "@@" ≠ []) ∧ '[' ∉ str "@@" ∧ ']' ∉ str "@@" ∧
      (∀ j, j < 12 → ¬ occursAt (str "@@") tex_replace j)) ∧
    countOcc (str "@@") (str "a[LATEX_SNIP]c") + 2
      ≤ countOcc (str "@@") (str "a@@b@@c") ∧
    (∃ fuel, (find_texsnips (str "@@") fuel (str "a@@b@@c")).isSome = true) := by
  refine ⟨⟨by decide, by decide, by decide, by decide⟩, ?_, ?_⟩
  · exact (C9_termination_amended (by decide) (by decide) (by decide) (by decide)).1
      (str "a@@b@@c") (str "b") (str "a[LATEX_SNIP]c") rfl
  · exact (C9_termination_amended (by decide) (by decide) (by decide) (by decide)).2
      (str "a@@b@@c")

-- ------------------------------------------------------------------
-- Claims C10, C1

/-- C10 (amended): the claimed precondition — neither the outside text nor any
raw snippet contains the placeholder — is not sufficient: a replacement can
recombine with adjacent document text into a junction placeholder occurrence
that steals a later snippet's slot (see the counterexample).  The correct
unstated precondition is that the fully-replaced document contains no
placeholder occurrence.  Under it, `insert_images_in_md` consumes exactly one
placeholder per snippet in left-to-right order: on a document alternating
segments with placeholders it produces the same segments alternated with the
per-ordinal replacements (image link, or raw snippet for a failed ordinal). -/
theorem C10_insert_order_amended (bad : List Nat) (snips segs : List (List Char))
    (hlen : segs.length = snips.length + 1)
    (hfree : ∀ i, i < (interR segs (reps bad 0 snips)).length →
      ¬ occursAt tex_replace (interR segs (reps bad 0 snips)) i) :
    insert_images_in_md snips bad (interP segs) = interR segs (reps bad 0 snips) :=
  insert_images_spec bad snips segs hlen hfree

/-- C10 counterexample: snippets `["[LATEX_SNI", "t1"]` with ordinal 0 failed,
document `A[LATEX_SNIP]P]B[LATEX_SNIP]C`.  No snippet and no outside segment
contains the placeholder, yet reinserting the raw text `[LATEX_SNI` before
`P]B` forms a junction placeholder which consumes snippet 1's image link; the
second original placeholder survives, so the result differs from the claimed
per-ordinal substitution. -/
theorem C10_insert_order_cex :
    countOcc tex_replace (str "[LATEX_SNI") = 0 ∧
    countOcc tex_replace (str "t1") = 0 ∧
    countOcc tex_replace (str "A") = 0 ∧
    countOcc tex_replace (str "P]B") = 0 ∧
    countOcc tex_replace (str "C") = 0 ∧
    insert_images_in_md [str "[LATEX_SNI", str "t1"] [0]
        (interP [str "A", str "P]B", str "C"])
      = str "A" ++ imageLink 1 ++ str "B[LATEX_SNIP]C" ∧
    str "A" ++ imageLink 1 ++ str "B[LATEX_SNIP]C"
      ≠ interR [str "A", str "P]B", str "C"]
          (reps [0] 0 [str "[LATEX_SNI", str "t1"]) := by
  refine ⟨by decide, by decide, by decide, by decide, by decide, by decide, by decide⟩

theorem C10_insert_order_witness :
    ([str "X", str "Y"].length = [str "s0"].length + 1 ∧
      (∀ i, i < (interR [str "X", str "Y"] (reps [0] 0 [str "s0"])).length →
        ¬ occursAt tex_replace (interR [str "X", str "Y"] (reps [0] 0 [str "s0"])) i)) ∧
    insert_images_in_md [str "s0"] [0] (interP [str "X", str "Y"])
      = interR [str "X", str "Y"] (reps [0] 0 [str "s0"]) :=
  ⟨⟨by decide, by decide⟩,
    C10_insert_order_amended [0] [str "s0"] [str "X", str "Y"] (by decide) (by decide)⟩

/-- C1 (amended): the round-trip holds under the scan preconditions (tag free
of `'['` and `']'` and not occurring in the placeholder, occurrences exactly
the well-matched pair positions, non-overlapping) together with the unstated
precondition that the reinserted document is placeholder-free: then the scan
returns the expected snippets and placeholder document, and reinsertion with
no failures yields the original non-LaTeX segments (`segsOf`) alternated with
the image links `![i](fig/tex_snip_i.png)` in original left-to-right order.
Without these preconditions the round-trip fails (see the counterexample):
placeholder text already present in the original document is rewritten. -/
theorem C1_round_trip_amended {tag content : List Char} {DP : List (Nat × Nat)}
    {fuel : Nat} (htag : tag ≠ []) (hlb : '[' ∉ tag) (hrb : ']' ∉ tag)
    (hP : ∀ j, j < 12 → ¬ occursAt tag tex_replace j)
    (hfuel : DP.length < fuel)
    (hchar : ∀ i, i < content.length →
      (occursAt tag content i ↔ i ∈ pairPositions DP))
    (hbound : ∀ d ∈ pairPositions DP, d < content.length)
    (hgap : Gapped tag.length (pairPositions DP))
    (hfree : ∀ i, i < (interR (segsOf tag.length content DP)
        ((List.range DP.length).map imageLink)).length →
      ¬ occursAt tex_replace (interR (segsOf tag.length content DP)
        ((List.range DP.length).map imageLink)) i) :
    find_texsnips tag fuel content
      = some (expSnips tag.length content DP, expNew tag.length content DP) ∧
    insert_images_in_md (expSnips tag.length content DP) []
        (expNew tag.length content DP)
      = interR (segsOf tag.length content DP) ((List.range DP.length).map imageLink) := by
  have h2 := @find_texsnips_spec' tag DP content none fuel htag hlb hrb hP hfuel
    (by intro i hi; simpa using hchar i hi)
    (by intro d hd; exact hbound d (by simpa using hd))
    (by simpa using hgap)
  have hlenS := expSnips_length tag.length DP.length DP content rfl
  have hsegl := segsOf_length tag.length DP.length DP content rfl
  have hrep : reps [] 0 (expSnips tag.length content DP)
      = (List.range DP.length).map imageLink := by
    rw [reps_nil_eq, hlenS, List.range_eq_range']
  refine ⟨h2, ?_⟩
  rw [expNew_eq_interP tag.length DP.length DP content rfl, ← hrep]
  exact insert_images_spec [] (expSnips tag.length content DP)
    (segsOf tag.length content DP) (by omega)
    (by rw [hrep]; exact hfree)

/-- C1 counterexample: the document `[LATEX_SNIP]@@x@@` has one well-matched
tag pair for tag `@@` and every snippet "succeeds" (no failed ordinal), yet
the round-trip moves the image link to the front: the original text
`[LATEX_SNIP]` left of the pair is itself consumed as the placeholder, so the
result is not the original non-LaTeX text with the region replaced in place. -/
theorem C1_round_trip_cex :
    find_texsnips (str "@@") 2 (str "[LATEX_SNIP]@@x@@")
      = some ([str "x"], str "[LATEX_SNIP][LATEX_SNIP]") ∧
    insert_images_in_md [str "x"] [] (str "[LATEX_SNIP][LATEX_SNIP]")
      = imageLink 0 ++ str "[LATEX_SNIP]" ∧
    imageLink 0 ++ str "[LATEX_SNIP]" ≠ str "[LATEX_SNIP]" ++ imageLink 0 := by
  refine ⟨rfl, by decide, by decide⟩

theorem C1_round_trip_witness :
    find_texsnips (str "@@") 2 (str "foo@@X@@bar")
      = some (expSnips 2 (str "foo@@X@@bar") [(3, 6)],
          expNew 2 (str "foo@@X@@bar") [(3, 6)]) ∧
    insert_images_in_md (expSnips 2 (str "foo@@X@@bar") [(3, 6)]) []
        (expNew 2 (str "foo@@X@@bar") [(3, 6)])
      = interR (segsOf 2 (str "foo@@X@@bar") [(3, 6)])
          ((List.range 1).map imageLink) := by
  have h := @C1_round_trip_amended (str "@@") (str "foo@@X@@bar") [(3, 6)] 2
    (by decide) (by decide) (by decide) (by decide) (by decide) (by decide)
    (by decide) (by decide)
    (by simp only [segsOf_cons, List.map_nil, segsOf_nil]; decide)
  exact h

-- ------------------------------------------------------------------
-- Claim C3

theorem exists_len3 {α : Type} (l : List α) (h : l.length = 3) :
    ∃ a b c, l = [a, b, c] := by
  obtain ⟨a, l1, rfl⟩ := List.exists_of_length_succ l (show l.length = 2 + 1 by omega)
  simp only [List.length_cons] at h
  obtain ⟨b, l2, rfl⟩ := List.exists_of_length_succ l1 (show l1.length = 1 + 1 by omega)
  simp only [List.length_cons] at h
  obtain ⟨c, l3, rfl⟩ := List.exists_of_length_succ l2 (show l2.length = 0 + 1 by omega)
  simp only [List.length_cons] at h
  have h0 : l3 = [] := List.length_eq_zero.1 (by omega)
  subst h0
  exact ⟨a, b, c, rfl⟩

theorem exists_len4 {α : Type} (l : List α) (h : l.length = 4) :
    ∃ a b c d, l = [a, b, c, d] := by
  obtain ⟨a, l1, rfl⟩ := List.exists_of_length_succ l (show l.length = 3 + 1 by omega)
  simp only [List.length_cons] at h
  obtain ⟨b, c, d, hb⟩ := exists_len3 l1 (by omega)
  exact ⟨a, b, c, d, by rw [hb]⟩

/-- C3 (amended): for a document with exactly 3 well-matched tag pairs (tag
free of brackets and not occurring in the placeholder) where only ordinal 2
fails compilation, the claimed outcome additionally needs the unstated
precondition that the reinserted document is placeholder-free (otherwise raw
text of a failed snippet can recombine with adjacent text, see the
counterexample: original document text equal to the placeholder absorbs the
links).  Under these preconditions the final document is the non-LaTeX
segments `s0..s3` interleaved, in position, with the image links for ordinals
0 and 1 and the raw snippet text for ordinal 2. -/
theorem C3_partial_failure_amended {tag content : List Char}
    {DP : List (Nat × Nat)} {fuel : Nat}
    (htag : tag ≠ []) (hlb : '[' ∉ tag) (hrb : ']' ∉ tag)
    (hP : ∀ j, j < 12 → ¬ occursAt tag tex_replace j)
    (hD3 : DP.length = 3) (hfuel : 3 < fuel)
    (hchar : ∀ i, i < content.length →
      (occursAt tag content i ↔ i ∈ pairPositions DP))
    (hbound : ∀ d ∈ pairPositions DP, d < content.length)
    (hgap : Gapped tag.length (pairPositions DP))
    (hfree : ∀ i, i < (interR (segsOf tag.length content DP)
        (reps [2] 0 (expSnips tag.length content DP))).length →
      ¬ occursAt tex_replace (interR (segsOf tag.length content DP)
        (reps [2] 0 (expSnips tag.length content DP))) i) :
    ∃ s0 s1 s2 s3 t0 t1 t2,
      segsOf tag.length content DP = [s0, s1, s2, s3] ∧
      expSnips tag.length content DP = [t0, t1, t2] ∧
      find_texsnips tag fuel content
        = some (expSnips tag.length content DP, expNew tag.length content DP) ∧
      insert_images_in_md (expSnips tag.length content DP) [2]
          (expNew tag.length content DP)
        = s0 ++ imageLink 0 ++ s1 ++ imageLink 1 ++ s2 ++ t2 ++ s3 := by
  have h2 := @find_texsnips_spec' tag DP content none fuel htag hlb hrb hP
    (by omega)
    (by intro i hi; simpa using hchar i hi)
    (by intro d hd; exact hbound d (by simpa using hd))
    (by simpa using hgap)
  have hlenS := expSnips_length tag.length DP.length DP content rfl
  have hsegl := segsOf_length tag.length DP.length DP content rfl
  obtain ⟨s0, s1, s2, s3, hseg⟩ := exists_len4 _ (by rw [hsegl, hD3])
  obtain ⟨t0, t1, t2, hsnip⟩ := exists_len3 _ (by rw [hlenS, hD3])
  have hIns : insert_images_in_md (expSnips tag.length content DP) [2]
      (expNew tag.length content DP)
      = interR (segsOf tag.length content DP)
          (reps [2] 0 (expSnips tag.length content DP)) := by
    rw [expNew_eq_interP tag.length DP.length DP content rfl]
    exact insert_images_spec [2] (expSnips tag.length content DP)
      (segsOf tag.length content DP) (by omega) hfree
  refine ⟨s0, s1, s2, s3, t0, t1, t2, hseg, hsnip, h2, ?_⟩
  rw [hIns, hseg, hsnip]
  simp only [reps, interR, List.append_assoc]
  simp [reps]

/-- C3 counterexample: for tag `@@`, the document
`[LATEX_SNIP]@@t0@@b@@t1@@c@@t2@@d` has 3 snippets with only ordinal 2
failing, yet the final document is not "links for 0 and 1 and raw text for 2,
each at its placeholder's position": the original leading text `[LATEX_SNIP]`
absorbs the ordinal-0 link, shifting every substitution one slot left and
leaving a stray placeholder. -/
theorem C3_partial_failure_cex :
    find_texsnips (str "@@") 4 (str "[LATEX_SNIP]@@t0@@b@@t1@@c@@t2@@d")
      = some ([str "t0", str "t1", str "t2"],
          str "[LATEX_SNIP][LATEX_SNIP]b[LATEX_SNIP]c[LATEX_SNIP]d") ∧
    insert_images_in_md [str "t0", str "t1", str "t2"] [2]
        (str "[LATEX_SNIP][LATEX_SNIP]b[LATEX_SNIP]c[LATEX_SNIP]d")
      = imageLink 0 ++ imageLink 1 ++ str "bt2c[LATEX_SNIP]d" ∧
    imageLink 0 ++ imageLink 1 ++ str "bt2c[LATEX_SNIP]d"
      ≠ str "[LATEX_SNIP]" ++ imageLink 0 ++ str "b" ++ imageLink 1
          ++ str "c" ++ str "t2" ++ str "d" := by
  refine ⟨rfl, by decide, by decide⟩

theorem C3_partial_failure_witness :
    ∃ s0 s1 s2 s3 t0 t1 t2,
      segsOf 2 (str "a@@t0@@b@@t1@@c@@t2@@d") [(1, 5), (8, 12), (15, 19)]
        = [s0, s1, s2, s3] ∧
      expSnips 2 (str "a@@t0@@b@@t1@@c@@t2@@d") [(1, 5), (8, 12), (15, 19)]
        = [t0, t1, t2] ∧
      find_texsnips (str "@@") 4 (str "a@@t0@@b@@t1@@c@@t2@@d")
        = some (expSnips 2 (str "a@@t0@@b@@t1@@c@@t2@@d") [(1, 5), (8, 12), (15, 19)],
            expNew 2 (str "a@@t0@@b@@t1@@c@@t2@@d") [(1, 5), (8, 12), (15, 19)]) ∧
      insert_images_in_md
          (expSnips 2 (str "a@@t0@@b@@t1@@c@@t2@@d") [(1, 5), (8, 12), (15, 19)]) [2]
          (expNew 2 (str "a@@t0@@b@@t1@@c@@t2@@d") [(1, 5), (8, 12), (15, 19)])
        = s0 ++ imageLink 0 ++ s1 ++ imageLink 1 ++ s2 ++ t2 ++ s3 := by
  exact @C3_partial_failure_amended (str "@@") (str "a@@t0@@b@@t1@@c@@t2@@d")
    [(1, 5), (8, 12), (15, 19)] 4 (by decide) (by decide) (by decide) (by decide)
    (by decide) (by decide) (by decide) (by decide) (by decide)
    (by simp only [segsOf_cons, segsOf_nil, expSnips_cons, expSnips_nil,
        List.map_cons, List.map_nil, shiftPos]; decide)
